import Mathlib

/-!
Verification of the asset-path model of geetools (`geetools/Asset/__init__.py`).

The `Asset` class wraps a `pathlib.PurePosixPath`.  We embed the relevant
fragment of `PurePosixPath` (POSIX flavour, CPython <= 3.11): a parsed path is
a root marker (0 = relative, 1 = the root "/", 2 = the special POSIX
double-slash root "//") together with the list of string components, where
parsing splits on "/" and drops empty components and ".".  `pathlib` keeps
".." components.  The `parts` tuple of an absolute path starts with the root
string; comparison of two paths is lexicographic over that tuple, with
Python's code-point-wise string comparison on the elements.
-/

/-- Split a character list on the separator `'/'`.  Never returns `[]`. -/
def splitSl : List Char → List (List Char)
  | [] => [[]]
  | c :: xs =>
    if c = '/' then [] :: splitSl xs
    else
      match splitSl xs with
      | h :: t => (c :: h) :: t
      | [] => [[c]]

/-- Number of leading `'/'` characters. -/
def leadSlashes : List Char → Nat
  | [] => 0
  | c :: xs => if c = '/' then leadSlashes xs + 1 else 0

/-- Join character-list components with single `'/'` separators. -/
def joinChars : List (List Char) → List Char
  | [] => []
  | [c] => c
  | c :: rest => c ++ '/' :: joinChars rest

/-- A component survives `pathlib` parsing iff it is nonempty and not `"."`. -/
def keptComp (c : List Char) : Bool := !c.isEmpty && decide (c ≠ ['.'])

/-- Embedding of `pathlib.PurePosixPath` values. -/
structure PurePosixPath where
  root : Nat
  parts : List String
deriving DecidableEq, Repr

/-- `PurePosixPath(s)`: root detection (exactly two leading slashes give the
special "//" root, any other positive number gives "/") and component
parsing (split on "/", drop empty components and "."). -/
def PurePosixPath.parse (s : String) : PurePosixPath :=
  let k := leadSlashes s.data
  { root := if k = 0 then 0 else if k = 2 then 2 else 1,
    parts := ((splitSl s.data).filter keptComp).map (fun c => ⟨c⟩) }

/-- `str(p)` / `p.as_posix()`: the root slashes followed by the components
joined with "/"; the empty relative path prints as ".". -/
def PurePosixPath.posix (p : PurePosixPath) : String :=
  if p.parts.isEmpty then
    if p.root = 0 then "." else ⟨List.replicate p.root '/'⟩
  else ⟨List.replicate p.root '/' ++ joinChars (p.parts.map String.data)⟩

/-- `PurePosixPath.is_absolute()`: the path has a root. -/
def PurePosixPath.isAbs (p : PurePosixPath) : Bool := p.root ≠ 0

/-- The `parts` tuple as exposed by `pathlib`: for an absolute path the root
string is the first element. -/
def PurePosixPath.cparts (p : PurePosixPath) : List String :=
  if p.root = 0 then p.parts else (⟨List.replicate p.root '/'⟩ : String) :: p.parts

/-- The geetools `Asset`: a wrapper around one `PurePosixPath` (`self._path`). -/
structure Asset where
  path : PurePosixPath
deriving DecidableEq, Repr

/-- `Asset.__init__` applied to an already-built `PurePosixPath`: if it is
absolute, re-parse `str(self._path)[1:]` (one leading character stripped). -/
def Asset.ofP (p : PurePosixPath) : Asset :=
  if p.root ≠ 0 then ⟨PurePosixPath.parse (p.posix.drop 1)⟩ else ⟨p⟩

/-- `Asset.__init__` from a string: parse, then strip one leading "/" when
the parsed path is absolute. -/
def Asset.of (s : String) : Asset := Asset.ofP (PurePosixPath.parse s)

/-- `Asset.as_posix()` (also `__str__`). -/
def Asset.posix (a : Asset) : String := a.path.posix

/-- `Asset.parts`. -/
def Asset.parts (a : Asset) : List String := a.path.cparts

/-- Python code-point-wise string comparison, as a comparison on the
underlying character lists. -/
def charsLt : List Char → List Char → Bool
  | _, [] => false
  | [], _ :: _ => true
  | a :: xs, b :: ys => if a < b then true else if b < a then false else charsLt xs ys

/-- Python `<` on strings. -/
def strLtB (a b : String) : Bool := charsLt a.data b.data

/-- Python `<` on lists/tuples of strings: elementwise, first difference
decides, a strict prefix is smaller. -/
def strListLt : List String → List String → Bool
  | _, [] => false
  | [], _ :: _ => true
  | a :: xs, b :: ys => if strLtB a b then true else if strLtB b a then false else strListLt xs ys

/-- `PurePosixPath.__eq__` (CPython <= 3.11): equality of the `parts` tuples. -/
def pyPathEqB (p q : PurePosixPath) : Bool := decide (p.cparts = q.cparts)

/-- `PurePosixPath.__lt__` (CPython <= 3.11): `<` on the `parts` tuples. -/
def pyPathLtB (p q : PurePosixPath) : Bool := strListLt p.cparts q.cparts

/-- `Asset.__eq__`: `self._path == PurePosixPath(str(other))`. -/
def Asset.eq (a b : Asset) : Bool := pyPathEqB a.path (PurePosixPath.parse b.posix)

/-- `Asset.__lt__`: `self._path < PurePosixPath(str(other))`. -/
def Asset.lt (a b : Asset) : Bool := pyPathLtB a.path (PurePosixPath.parse b.posix)

/-- `Asset.__gt__`: `self._path > PurePosixPath(str(other))`. -/
def Asset.gt (a b : Asset) : Bool := pyPathLtB (PurePosixPath.parse b.posix) a.path

/-- `Asset.__le__`: `self._path <= PurePosixPath(str(other))` (`<=` on the
`parts` tuples, i.e. `<` or equal). -/
def Asset.le (a b : Asset) : Bool := Asset.lt a b || Asset.eq a b

/-- `Asset.__ge__`: `self._path >= PurePosixPath(str(other))`. -/
def Asset.ge (a b : Asset) : Bool := Asset.gt a b || Asset.eq a b

/-- `Asset` defines `__eq__` (line 56) but never defines `__hash__`; Python
therefore sets `__hash__ = None` on the class, and `hash()` on an `Asset`
instance raises `TypeError`.  Modelled as `none` (no hash value exists). -/
def Asset.pyHash (_ : Asset) : Option Nat := none

/-- Well-formed components: nonempty, containing no separator, and not ".".
Every component produced by parsing satisfies this. -/
def okComp (c : String) : Bool := decide (c.data ≠ [] ∧ '/' ∉ c.data ∧ c.data ≠ ['.'])

/-- Well-formed `PurePosixPath` values: a root of at most two slashes and
well-formed components.  All parse results are well formed. -/
def PurePosixPath.Wf (p : PurePosixPath) : Prop :=
  p.root ≤ 2 ∧ ∀ c ∈ p.parts, okComp c = true

section ParseLemmas

theorem splitSl_ne_nil (l : List Char) : splitSl l ≠ [] := by
  cases l with
  | nil => simp [splitSl]
  | cons c xs =>
    simp only [splitSl]
    split
    · simp
    · split <;> simp

theorem splitSl_append_sep (c : List Char) (t : List Char) (hc : '/' ∉ c) :
    splitSl (c ++ '/' :: t) = c :: splitSl t := by
  induction c with
  | nil => simp [splitSl]
  | cons a xs ih =>
    have ha : a ≠ '/' := by intro h; exact hc (h ▸ List.mem_cons_self a xs)
    have hxs : '/' ∉ xs := fun h => hc (List.mem_cons_of_mem a h)
    simp only [List.cons_append, splitSl, if_neg ha, List.append_eq, ih hxs]

theorem splitSl_no_sep (c : List Char) (hc : '/' ∉ c) : splitSl c = [c] := by
  induction c with
  | nil => rfl
  | cons a xs ih =>
    have ha : a ≠ '/' := by intro h; exact hc (h ▸ List.mem_cons_self a xs)
    have hxs : '/' ∉ xs := fun h => hc (List.mem_cons_of_mem a h)
    simp only [splitSl, if_neg ha, ih hxs]

theorem splitSl_joinChars (ls : List (List Char)) (h : ∀ c ∈ ls, '/' ∉ c) (hne : ls ≠ []) :
    splitSl (joinChars ls) = ls := by
  induction ls with
  | nil => exact absurd rfl hne
  | cons c rest ih =>
    cases rest with
    | nil => exact splitSl_no_sep c (h c (List.mem_cons_self c []))
    | cons d rest' =>
      have hc : '/' ∉ c := h c (List.mem_cons_self _ _)
      have hrest : ∀ x ∈ d :: rest', '/' ∉ x := fun x hx => h x (List.mem_cons_of_mem c hx)
      simp only [joinChars, splitSl_append_sep c _ hc, ih hrest (by simp)]

theorem leadSlashes_append (c : List Char) (t : List Char) (hc : c ≠ []) (h : c.head? ≠ some '/') :
    leadSlashes (c ++ t) = 0 := by
  cases c with
  | nil => exact absurd rfl hc
  | cons a xs =>
    have : a ≠ '/' := by intro hh; exact h (by simp [hh])
    simp [leadSlashes, this]

theorem leadSlashes_replicate (k : Nat) (t : List Char) (h : t.head? ≠ some '/') :
    leadSlashes (List.replicate k '/' ++ t) = k := by
  induction k with
  | zero =>
    simp only [List.replicate, List.nil_append]
    cases t with
    | nil => rfl
    | cons a xs =>
      have : a ≠ '/' := by intro hh; exact h (by simp [hh])
      simp [leadSlashes, this]
  | succ n ih => simp [List.replicate, leadSlashes, ih]

theorem splitSl_replicate_append (k : Nat) (t : List Char) :
    splitSl (List.replicate k '/' ++ t) = List.replicate k [] ++ splitSl t := by
  induction k with
  | zero => simp [List.replicate]
  | succ n ih => simp [List.replicate, splitSl, ih]

theorem mem_splitSl_no_sep (xs : List Char) (l : List Char) (hmem : l ∈ splitSl xs) :
    '/' ∉ l := by
  induction xs generalizing l with
  | nil =>
    simp only [splitSl, List.mem_singleton] at hmem
    subst hmem; simp
  | cons a xs ih =>
    simp only [splitSl] at hmem
    split at hmem
    · rcases List.mem_cons.mp hmem with h | h
      · subst h; simp
      · exact ih l h
    · rename_i ha
      rcases hs : splitSl xs with _ | ⟨h0, t0⟩
      · exact absurd hs (splitSl_ne_nil xs)
      · rw [hs] at hmem
        rcases List.mem_cons.mp hmem with h | h
        · subst h
          intro hmem2
          rcases List.mem_cons.mp hmem2 with h | h
          · exact ha h.symm
          · have : h0 ∈ splitSl xs := by rw [hs]; exact List.mem_cons_self _ _
            exact ih h0 this h
        · have : l ∈ splitSl xs := by rw [hs]; exact List.mem_cons_of_mem _ h
          exact ih l this

theorem parse_wf (s : String) : (PurePosixPath.parse s).Wf := by
  refine ⟨?_, ?_⟩
  · simp only [PurePosixPath.parse]
    split
    · omega
    · split <;> omega
  · intro c hc
    simp only [PurePosixPath.parse, List.mem_map] at hc
    obtain ⟨l, hl, rfl⟩ := hc
    have hkept : keptComp l = true := (List.mem_filter.mp hl).2
    have hmem : l ∈ splitSl s.data := (List.mem_filter.mp hl).1
    have hnosl : '/' ∉ l := mem_splitSl_no_sep s.data l hmem
    simp only [keptComp, Bool.and_eq_true, Bool.not_eq_true', decide_eq_true_eq] at hkept
    have hdata : (⟨l⟩ : String).data = l := rfl
    simp only [okComp, hdata, decide_eq_true_eq]
    exact ⟨by simpa [List.isEmpty_iff] using hkept.1, hnosl, hkept.2⟩

theorem keptComp_of_ok (c : String) (h : okComp c = true) : keptComp c.data = true := by
  simp only [okComp, decide_eq_true_eq] at h
  simp only [keptComp, Bool.and_eq_true, Bool.not_eq_true', decide_eq_true_eq]
  exact ⟨by simp [List.isEmpty_iff, h.1], h.2.2⟩

theorem joinChars_headI (c : List Char) (rest : List (List Char)) :
    ∃ t, joinChars (c :: rest) = c ++ t := by
  cases rest with
  | nil => exact ⟨[], by simp [joinChars]⟩
  | cons d r => exact ⟨'/' :: joinChars (d :: r), rfl⟩

/-- Round trip: parsing the printed form of a well-formed path gives it back. -/
theorem parse_posix (p : PurePosixPath) (hwf : p.Wf) :
    PurePosixPath.parse p.posix = p := by
  obtain ⟨hroot, hcomp⟩ := hwf
  obtain ⟨r, l⟩ := p
  simp only at hroot hcomp
  cases l with
  | nil =>
    simp only [PurePosixPath.posix, List.isEmpty_nil, if_true]
    interval_cases r
    · decide
    · decide
    · decide
  | cons c0 cs =>
    have hposix : (PurePosixPath.posix ⟨r, c0 :: cs⟩).data
        = List.replicate r '/' ++ joinChars ((c0 :: cs).map String.data) := by
      simp [PurePosixPath.posix]
    have hok0 : okComp c0 = true := hcomp c0 (List.mem_cons_self _ _)
    have hd0 : c0.data ≠ [] ∧ '/' ∉ c0.data := by
      simp only [okComp, decide_eq_true_eq] at hok0
      exact ⟨hok0.1, hok0.2.1⟩
    obtain ⟨t, ht⟩ := joinChars_headI c0.data (cs.map String.data)
    have hhead : (joinChars ((c0 :: cs).map String.data)).head? ≠ some '/' := by
      simp only [List.map_cons] at ht ⊢
      rw [ht]
      cases hc : c0.data with
      | nil => exact absurd hc hd0.1
      | cons a xs =>
        have : a ≠ '/' := by
          intro h; exact hd0.2 (by rw [hc, h]; exact List.mem_cons_self _ _)
        simp [this]
    have hnosl : ∀ x ∈ (c0 :: cs).map String.data, '/' ∉ x := by
      intro x hx
      simp only [List.mem_map] at hx
      obtain ⟨c, hc, rfl⟩ := hx
      have := hcomp c hc
      simp only [okComp, decide_eq_true_eq] at this
      exact this.2.1
    have hsplit : splitSl (joinChars ((c0 :: cs).map String.data)) = (c0 :: cs).map String.data :=
      splitSl_joinChars _ hnosl (by simp)
    have hkeep : ∀ c ∈ c0 :: cs, keptComp c.data = true :=
      fun c hc => keptComp_of_ok c (hcomp c hc)
    have hnilkept : keptComp ([] : List Char) = false := rfl
    have hfilt : List.filter keptComp ((c0 :: cs).map String.data)
        = (c0 :: cs).map String.data := by
      apply List.filter_eq_self.mpr
      intro x hx
      simp only [List.mem_map] at hx
      obtain ⟨c, hc, rfl⟩ := hx
      exact hkeep c hc
    have hcomps : ((fun c => (⟨c⟩ : String)) ∘ String.data) = id := funext fun c => rfl
    simp only [PurePosixPath.parse, hposix, leadSlashes_replicate r _ hhead,
      splitSl_replicate_append, List.filter_append, hsplit, List.filter_replicate,
      hnilkept, hfilt, List.map_map, hcomps, List.map_id, PurePosixPath.mk.injEq]
    refine ⟨?_, by simp [hcomps]⟩
    split_ifs <;> omega


theorem posix_root1_drop (l : List String) (h : ∀ c ∈ l, okComp c = true) :
    PurePosixPath.parse ((PurePosixPath.posix ⟨1, l⟩).drop 1) = ⟨0, l⟩ := by
  cases l with
  | nil => decide
  | cons c cs =>
    have heq : (PurePosixPath.posix ⟨1, c :: cs⟩).drop 1 = PurePosixPath.posix ⟨0, c :: cs⟩ := by
      apply String.ext
      simp [String.drop_eq, PurePosixPath.posix, List.replicate]
    rw [heq]
    exact parse_posix ⟨0, c :: cs⟩ ⟨Nat.zero_le 2, h⟩

theorem parse_root_cases (s : String) :
    (PurePosixPath.parse s).root
      = if leadSlashes s.data = 0 then 0 else if leadSlashes s.data = 2 then 2 else 1 := rfl

/-- For input strings that do not begin with exactly two separators, the
constructed asset's path is relative, with the parsed components. -/
theorem assetOf_path (s : String) (h : leadSlashes s.data ≠ 2) :
    (Asset.of s).path = ⟨0, (PurePosixPath.parse s).parts⟩ := by
  have hwf := parse_wf s
  unfold Asset.of Asset.ofP
  by_cases h0 : leadSlashes s.data = 0
  · have hr : (PurePosixPath.parse s).root = 0 := by rw [parse_root_cases, if_pos h0]
    rw [if_neg (by simp [hr])]
    cases hps : PurePosixPath.parse s with
    | mk r l => rw [hps] at hr; simp at hr ⊢; exact hr
  · have hr : (PurePosixPath.parse s).root = 1 := by
      rw [parse_root_cases, if_neg h0, if_neg h]
    rw [if_pos (by simp [hr])]
    have hps : PurePosixPath.parse s = ⟨1, (PurePosixPath.parse s).parts⟩ := by
      cases hps : PurePosixPath.parse s with
      | mk r l => rw [hps] at hr; simp at hr ⊢; exact hr
    rw [hps, posix_root1_drop _ (by rw [hps] at hwf; exact hwf.2)]

/-- C4 (amended): for every input string that does not begin with exactly two
separators, parsing is idempotent: re-parsing the string form of a parsed
asset yields an asset that Python `==` reports equal. -/
theorem parse_idempotent (s : String) (h : leadSlashes s.data ≠ 2) :
    Asset.eq (Asset.of ((Asset.of s).posix)) (Asset.of s) = true := by
  have hpath := assetOf_path s h
  have hwf : (Asset.of s).path.Wf := by
    rw [hpath]; exact ⟨Nat.zero_le 2, (parse_wf s).2⟩
  have hre : PurePosixPath.parse ((Asset.of s).posix) = (Asset.of s).path :=
    parse_posix _ hwf
  have hr0 : (PurePosixPath.parse ((Asset.of s).posix)).root = 0 := by
    rw [hre, hpath]
  have hsame : Asset.of ((Asset.of s).posix) = Asset.of s := by
    show Asset.ofP (PurePosixPath.parse ((Asset.of s).posix)) = Asset.of s
    unfold Asset.ofP
    rw [if_neg (by simp [hr0]), hre]
  have hre2 : PurePosixPath.parse ((Asset.of s).path.posix) = (Asset.of s).path := hre
  rw [hsame]
  simp [Asset.eq, pyPathEqB, Asset.posix, hre2]

/-- C4 counterexample: the claim fails on the string `"//a"`.  A POSIX path
beginning with exactly two slashes keeps the special `"//"` root, the
constructor strips only a single leading separator, and the re-parsed asset
differs from the original. -/
theorem parse_idempotent_cex :
    Asset.eq (Asset.of ((Asset.of "//a").posix)) (Asset.of "//a") = false := by decide

/-- Witness for the C4 theorem at a concrete input with repeated and leading
separators. -/
theorem parse_idempotent_witness :
    leadSlashes "/projects//p/assets/./x".data ≠ 2 ∧
      Asset.eq (Asset.of ((Asset.of "/projects//p/assets/./x").posix))
        (Asset.of "/projects//p/assets/./x") = true :=
  ⟨by decide, parse_idempotent _ (by decide)⟩

end ParseLemmas

section CompareLemmas

/-- Every constructed asset has a well-formed path. -/
theorem assetOf_wf (s : String) : (Asset.of s).path.Wf := by
  unfold Asset.of Asset.ofP
  split
  · exact parse_wf _
  · exact parse_wf s

/-- The componentwise (lexicographic) order on the `parts` tuples, with
code-point comparison inside each component. -/
def compLex (x y : List String) : Prop :=
  List.Lex (fun u v : String => List.Lex (· < ·) u.data v.data) x y

theorem charsLt_self (l : List Char) : charsLt l l = false := by
  induction l with
  | nil => rfl
  | cons a xs ih => simp only [charsLt, if_neg (lt_irrefl a), ih]

theorem charsLt_iff (x y : List Char) : charsLt x y = true ↔ List.Lex (· < ·) x y := by
  induction x generalizing y with
  | nil =>
    cases y with
    | nil => simp [charsLt]
    | cons b ys => simp [charsLt, List.Lex.nil]
  | cons a xs ih =>
    cases y with
    | nil =>
      simp only [charsLt, Bool.false_eq_true, false_iff]
      exact List.Lex.not_nil_right _ _
    | cons b ys =>
      simp only [charsLt]
      by_cases hab : a < b
      · simp only [if_pos hab, true_iff]
        exact List.Lex.rel hab
      · by_cases hba : b < a
        · simp only [if_neg hab, if_pos hba, Bool.false_eq_true, false_iff]
          intro hcon
          cases hcon with
          | cons h => exact absurd hba (lt_irrefl a)
          | rel h => exact absurd h hab
        · have hEq : a = b := le_antisymm (not_lt.mp hba) (not_lt.mp hab)
          subst hEq
          simp only [if_neg hab, if_neg hba, ih ys]
          constructor
          · exact List.Lex.cons
          · intro h
            cases h with
            | cons h => exact h
            | rel h => exact absurd h (lt_irrefl a)

theorem strLtB_iff (u v : String) : strLtB u v = true ↔ List.Lex (· < ·) u.data v.data :=
  charsLt_iff u.data v.data

theorem strLex_irrefl (u : String) : ¬ List.Lex (· < ·) u.data u.data := by
  intro h
  have h2 := (charsLt_iff u.data u.data).mpr h
  rw [charsLt_self] at h2
  exact Bool.false_ne_true h2

theorem strLex_antisymm {u v : String} (h1 : ¬ List.Lex (· < ·) u.data v.data)
    (h2 : ¬ List.Lex (· < ·) v.data u.data) : u = v := by
  rcases lt_trichotomy u.data v.data with h | h | h
  · exact absurd h h1
  · exact String.ext h
  · exact absurd h h2

theorem strListLt_iff (x y : List String) : strListLt x y = true ↔ compLex x y := by
  induction x generalizing y with
  | nil =>
    cases y with
    | nil =>
      simp only [strListLt, Bool.false_eq_true, false_iff, compLex]
      exact List.Lex.not_nil_right _ _
    | cons b ys => simp [strListLt, compLex, List.Lex.nil]
  | cons a xs ih =>
    cases y with
    | nil =>
      simp only [strListLt, Bool.false_eq_true, false_iff, compLex]
      exact List.Lex.not_nil_right _ _
    | cons b ys =>
      simp only [strListLt, compLex]
      by_cases hab : strLtB a b = true
      · simp only [if_pos hab, true_iff]
        exact List.Lex.rel ((strLtB_iff a b).mp hab)
      · by_cases hba : strLtB b a = true
        · simp only [if_neg hab, if_pos hba, Bool.false_eq_true, false_iff]
          intro hcon
          cases hcon with
          | cons h => exact strLex_irrefl a ((strLtB_iff a a).mp hba)
          | rel h => exact hab ((strLtB_iff a b).mpr h)
        · have hEq : a = b :=
            strLex_antisymm (fun h => hab ((strLtB_iff a b).mpr h))
              (fun h => hba ((strLtB_iff b a).mpr h))
          subst hEq
          simp only [if_neg hab, ih ys]
          constructor
          · exact List.Lex.cons
          · intro h
            cases h with
            | cons h => exact h
            | rel h => exact absurd h (strLex_irrefl a)

theorem asset_reparse (b : Asset) (h : b.path.Wf) :
    PurePosixPath.parse b.posix = b.path := parse_posix b.path h

/-- C5 (amended): equality and the order relations on assets are computed
purely componentwise on the normalized `parts` tuples (sequences of strings
compared string-by-string, not as one joined string); hashing, however, is
unavailable: the class defines `__eq__` without `__hash__`, so instances have
no hash value. -/
theorem asset_compare_componentwise (s t : String) :
    (Asset.eq (Asset.of s) (Asset.of t) = true ↔ (Asset.of s).parts = (Asset.of t).parts) ∧
    (Asset.lt (Asset.of s) (Asset.of t) = true ↔
      compLex (Asset.of s).parts (Asset.of t).parts) ∧
    (Asset.gt (Asset.of s) (Asset.of t) = true ↔
      compLex (Asset.of t).parts (Asset.of s).parts) ∧
    (Asset.le (Asset.of s) (Asset.of t) = true ↔
      (compLex (Asset.of s).parts (Asset.of t).parts ∨
        (Asset.of s).parts = (Asset.of t).parts)) ∧
    (Asset.ge (Asset.of s) (Asset.of t) = true ↔
      (compLex (Asset.of t).parts (Asset.of s).parts ∨
        (Asset.of s).parts = (Asset.of t).parts)) ∧
    Asset.pyHash (Asset.of s) = none := by
  have hb := asset_reparse (Asset.of t) (assetOf_wf t)
  refine ⟨?_, ?_, ?_, ?_, ?_, rfl⟩
  · simp [Asset.eq, pyPathEqB, hb, Asset.parts]
  · simp [Asset.lt, pyPathLtB, hb, Asset.parts, strListLt_iff]
  · simp [Asset.gt, pyPathLtB, hb, Asset.parts, strListLt_iff]
  · simp [Asset.le, Asset.lt, Asset.eq, pyPathEqB, pyPathLtB, hb, Asset.parts, strListLt_iff]
  · simp [Asset.ge, Asset.gt, Asset.eq, pyPathEqB, pyPathLtB, hb, Asset.parts, strListLt_iff]

/-- C5 counterexample: the assets built from `"a//b/"` and `"a/b"` have
identical component sequences and Python reports them equal, yet neither has
a hash value (the class defines `__eq__` without `__hash__`, so `hash()`
raises `TypeError`): the claim that equal-component assets "have equal
hashes" fails. -/
theorem asset_hash_cex :
    Asset.eq (Asset.of "a//b/") (Asset.of "a/b") = true ∧
      ¬ ∃ n : Nat, Asset.pyHash (Asset.of "a//b/") = some n ∧
          Asset.pyHash (Asset.of "a/b") = some n := by
  refine ⟨by decide, ?_⟩
  rintro ⟨n, h, -⟩
  exact Option.noConfusion h

end CompareLemmas

/-- `PurePosixPath.parent`: drop the last component; the empty relative path
and the bare roots are their own parent. -/
def PurePosixPath.parent (p : PurePosixPath) : PurePosixPath :=
  if p.parts = [] then p else ⟨p.root, p.parts.dropLast⟩

/-- `PurePosixPath.parents`: the chain of proper parents, nearest first,
ending at the anchor (the empty relative path or the bare root). -/
def PurePosixPath.parentsP (p : PurePosixPath) : List PurePosixPath :=
  (List.range p.parts.length).map (fun i => ⟨p.root, p.parts.take (p.parts.length - 1 - i)⟩)

/-- Body of the regex `^\.$`. -/
def fullDot (s : List Char) : Bool := decide (s = ['.'])

/-- Body of the regex `^projects$`. -/
def coreProjects (s : List Char) : Bool := decide (s = "projects".data)

/-- Body of the regex `^projects/[^/]+$`: exactly two slash-separated chunks,
the first being `projects`, the second nonempty. -/
def coreProjOwner (s : List Char) : Bool :=
  match splitSl s with
  | [p, x] => decide (p = "projects".data) && !x.isEmpty
  | _ => false

/-- Body of the regex `^projects/[^/]+/assets$`. -/
def coreProjOwnerAssets (s : List Char) : Bool :=
  match splitSl s with
  | [p, x, q] => decide (p = "projects".data) && !x.isEmpty && decide (q = "assets".data)
  | _ => false

/-- Python `re.match` of an `^X$` pattern: `X` must match the whole string,
or the whole string minus one trailing newline (`$` also matches just before
a final newline). -/
def dollarMatch (core : List Char → Bool) (s : List Char) : Bool :=
  core s || (decide (s.getLast? = some (Char.ofNat 10)) && core s.dropLast)

/-- The filter used by `Asset.parents`: some scaffolding pattern matches
`str(a)`. -/
def scaffoldMatch (p : PurePosixPath) : Bool :=
  dollarMatch fullDot p.posix.data || dollarMatch coreProjects p.posix.data ||
    dollarMatch coreProjOwner p.posix.data || dollarMatch coreProjOwnerAssets p.posix.data

/-- `Asset.parents`: the parents of `self._path` with every entry matching one
of the four scaffolding patterns removed, each survivor wrapped as an `Asset`. -/
def Asset.parents (a : Asset) : List Asset :=
  (a.path.parentsP.filter (fun p => !scaffoldMatch p)).map Asset.ofP

/-- `Asset.parent`. -/
def Asset.parent (a : Asset) : Asset := Asset.ofP a.path.parent

section ParentsLemmas

theorem splitSl_length (l : List Char) : (splitSl l).length = l.count '/' + 1 := by
  induction l with
  | nil => rfl
  | cons c xs ih =>
    by_cases hc : c = '/'
    · subst hc
      simp [splitSl, List.count_cons, ih]
    · rcases hs : splitSl xs with _ | ⟨h0, t0⟩
      · exact absurd hs (splitSl_ne_nil xs)
      · simp only [splitSl, if_neg hc, hs]
        rw [hs] at ih
        simp only [List.length_cons] at ih ⊢
        rw [List.count_cons]
        simp [hc, ih]

theorem count_joinChars (ls : List (List Char)) (h : ∀ c ∈ ls, '/' ∉ c) (hne : ls ≠ []) :
    (joinChars ls).count '/' = ls.length - 1 := by
  induction ls with
  | nil => exact absurd rfl hne
  | cons c rest ih =>
    cases rest with
    | nil =>
      simp only [joinChars, List.length_cons, List.length_nil]
      exact List.count_eq_zero.mpr (h c (List.mem_cons_self _ _))
    | cons d rest' =>
      have hc : '/' ∉ c := h c (List.mem_cons_self _ _)
      have hrest : ∀ x ∈ d :: rest', '/' ∉ x := fun x hx => h x (List.mem_cons_of_mem c hx)
      have hcnt0 : c.count '/' = 0 := List.count_eq_zero.mpr hc
      have hbeq : (('/' : Char) == '/') = true := by decide
      simp only [joinChars, List.count_append, List.count_cons, hcnt0, ih hrest (by simp),
        hbeq, if_true, List.length_cons]
      omega

theorem getLastQ_joinChars (ls : List (List Char)) (h : ∀ c ∈ ls, c ≠ [] ∧ '/' ∉ c)
    (hne : ls ≠ []) : ∃ ch, (joinChars ls).getLast? = some ch ∧ ch ≠ '/' := by
  induction ls with
  | nil => exact absurd rfl hne
  | cons c rest ih =>
    cases rest with
    | nil =>
      have hc := h c (List.mem_cons_self _ _)
      refine ⟨c.getLast hc.1, ?_, ?_⟩
      · simpa [joinChars] using List.getLast?_eq_getLast c hc.1
      · intro hcon
        exact hc.2 (hcon ▸ List.getLast_mem hc.1)
    | cons d rest' =>
      have hrest : ∀ x ∈ d :: rest', x ≠ [] ∧ '/' ∉ x :=
        fun x hx => h x (List.mem_cons_of_mem c hx)
      obtain ⟨ch, hch, hne'⟩ := ih hrest (by simp)
      refine ⟨ch, ?_, hne'⟩
      have hjoin_ne : joinChars (d :: rest') ≠ [] := by
        intro hcon
        have := hch
        rw [hcon] at this
        simp at this
      show (joinChars (c :: d :: rest')).getLast? = some ch
      have : joinChars (c :: d :: rest') = c ++ '/' :: joinChars (d :: rest') := rfl
      rw [this, List.getLast?_append]
      cases hj : joinChars (d :: rest') with
      | nil => exact absurd hj hjoin_ne
      | cons a t =>
        rw [hj] at hch
        simp [List.getLast?_cons_cons, hch]

theorem count_dropLast_eq (s : List Char) (hne : s ≠ [])
    (hlast : ∀ ch, s.getLast? = some ch → ch ≠ '/') :
    s.dropLast.count '/' = s.count '/' := by
  have hdecomp := List.dropLast_append_getLast hne
  have hl : s.getLast hne ≠ '/' := hlast _ (List.getLast?_eq_getLast s hne)
  conv_rhs => rw [← hdecomp]
  rw [List.count_append, List.count_singleton]
  simp [hl]

theorem fullDot_count (s : List Char) (h : fullDot s = true) : s.count '/' = 0 := by
  simp only [fullDot, decide_eq_true_eq] at h
  subst h; decide

theorem coreProjects_count (s : List Char) (h : coreProjects s = true) : s.count '/' = 0 := by
  simp only [coreProjects, decide_eq_true_eq] at h
  subst h; decide

theorem coreProjOwner_count (s : List Char) (h : coreProjOwner s = true) : s.count '/' = 1 := by
  unfold coreProjOwner at h
  rcases hs : splitSl s with _ | ⟨p, _ | ⟨x, _ | ⟨y, t⟩⟩⟩ <;> rw [hs] at h
  · exact absurd h (by simp)
  · exact absurd h (by simp)
  · have hlen := splitSl_length s
    rw [hs] at hlen
    simp only [List.length_cons, List.length_nil] at hlen
    omega
  · exact absurd h (by simp)

theorem coreProjOwnerAssets_count (s : List Char) (h : coreProjOwnerAssets s = true) :
    s.count '/' = 2 := by
  unfold coreProjOwnerAssets at h
  rcases hs : splitSl s with _ | ⟨p, _ | ⟨x, _ | ⟨y, _ | ⟨z, t⟩⟩⟩⟩ <;> rw [hs] at h
  · exact absurd h (by simp)
  · exact absurd h (by simp)
  · exact absurd h (by simp)
  · have hlen := splitSl_length s
    rw [hs] at hlen
    simp only [List.length_cons, List.length_nil] at hlen
    omega
  · exact absurd h (by simp)

theorem scaffoldMatch_false_of_deep (s : List Char) (hcnt : 3 ≤ s.count '/')
    (hlast : ∀ ch, s.getLast? = some ch → ch ≠ '/') (hne : s ≠ []) :
    (dollarMatch fullDot s || dollarMatch coreProjects s ||
      dollarMatch coreProjOwner s || dollarMatch coreProjOwnerAssets s) = false := by
  have hdrop : s.dropLast.count '/' = s.count '/' := count_dropLast_eq s hne hlast
  have refute : ∀ core : List Char → Bool, (∀ t, core t = true → t.count '/' ≤ 2) →
      dollarMatch core s = false := by
    intro core hcore
    unfold dollarMatch
    rw [Bool.or_eq_false_iff]
    constructor
    · by_contra hcon
      rw [Bool.not_eq_false] at hcon
      have := hcore s hcon
      omega
    · rw [Bool.and_eq_false_iff]
      right
      by_contra hcon
      rw [Bool.not_eq_false] at hcon
      have := hcore s.dropLast hcon
      omega
  rw [refute fullDot (fun t ht => by have := fullDot_count t ht; omega),
    refute coreProjects (fun t ht => by have := coreProjects_count t ht; omega),
    refute coreProjOwner (fun t ht => by have := coreProjOwner_count t ht; omega),
    refute coreProjOwnerAssets (fun t ht => by have := coreProjOwnerAssets_count t ht; omega)]
  rfl

end ParentsLemmas

section ParentsMain

theorem posix_data0 (l : List String) (hne : l ≠ []) :
    (PurePosixPath.posix ⟨0, l⟩).data = joinChars (l.map String.data) := by
  have hE : l.isEmpty = false := by
    cases l with
    | nil => exact absurd rfl hne
    | cons a t => rfl
  simp [PurePosixPath.posix, hE, List.replicate]

theorem okComp_data (c : String) (h : okComp c = true) :
    c.data ≠ [] ∧ '/' ∉ c.data ∧ c.data ≠ ['.'] := by
  simpa only [okComp, decide_eq_true_eq] using h

theorem scaffoldMatch_deep (l : List String) (h : ∀ c ∈ l, okComp c = true)
    (hlen : 4 ≤ l.length) : scaffoldMatch ⟨0, l⟩ = false := by
  have hne : l ≠ [] := by intro h0; subst h0; simp at hlen
  have hdata := posix_data0 l hne
  have hprops : ∀ c ∈ l.map String.data, c ≠ [] ∧ '/' ∉ c := by
    intro c hc
    simp only [List.mem_map] at hc
    obtain ⟨x, hx, rfl⟩ := hc
    have := okComp_data x (h x hx)
    exact ⟨this.1, this.2.1⟩
  have hmapne : l.map String.data ≠ [] := by
    intro h0
    exact hne (List.map_eq_nil_iff.mp h0)
  have hcnt : 3 ≤ (joinChars (l.map String.data)).count '/' := by
    rw [count_joinChars _ (fun c hc => (hprops c hc).2) hmapne]
    simp only [List.length_map]
    omega
  obtain ⟨ch, hch, hch'⟩ := getLastQ_joinChars _ hprops hmapne
  have hsne : joinChars (l.map String.data) ≠ [] := by
    intro h0
    rw [h0] at hch
    simp at hch
  have hlast : ∀ c : Char, (joinChars (l.map String.data)).getLast? = some c → c ≠ '/' := by
    intro c hc
    rw [hch] at hc
    injection hc with hc
    exact hc ▸ hch'
  unfold scaffoldMatch
  rw [hdata]
  exact scaffoldMatch_false_of_deep _ hcnt hlast hsne

theorem scaffoldMatch_zero : scaffoldMatch ⟨0, []⟩ = true := by decide

theorem scaffoldMatch_one : scaffoldMatch ⟨0, ["projects"]⟩ = true := by decide

theorem scaffoldMatch_two (own : String) (ho : okComp own = true) :
    scaffoldMatch ⟨0, ["projects", own]⟩ = true := by
  obtain ⟨hne, hnosl, -⟩ := okComp_data own ho
  have hdata := posix_data0 ["projects", own] (by simp)
  have hjoin : joinChars (["projects", own].map String.data)
      = "projects".data ++ '/' :: own.data := rfl
  have hsplit : splitSl ("projects".data ++ '/' :: own.data)
      = ["projects".data, own.data] := by
    rw [splitSl_append_sep _ _ (by decide), splitSl_no_sep own.data hnosl]
  have hE : own.data.isEmpty = false := by
    cases hc : own.data with
    | nil => exact absurd hc hne
    | cons a t => rfl
  have hcore : coreProjOwner ("projects".data ++ '/' :: own.data) = true := by
    unfold coreProjOwner
    rw [hsplit]
    simp [hE]
  unfold scaffoldMatch
  rw [hdata, hjoin]
  have : dollarMatch coreProjOwner ("projects".data ++ '/' :: own.data) = true := by
    unfold dollarMatch
    rw [hcore]
    rfl
  rw [this]
  simp

theorem scaffoldMatch_three (own : String) (ho : okComp own = true) :
    scaffoldMatch ⟨0, ["projects", own, "assets"]⟩ = true := by
  obtain ⟨hne, hnosl, -⟩ := okComp_data own ho
  have hdata := posix_data0 ["projects", own, "assets"] (by simp)
  have hjoin : joinChars (["projects", own, "assets"].map String.data)
      = "projects".data ++ '/' :: (own.data ++ '/' :: "assets".data) := rfl
  have hsplit : splitSl ("projects".data ++ '/' :: (own.data ++ '/' :: "assets".data))
      = ["projects".data, own.data, "assets".data] := by
    rw [splitSl_append_sep _ _ (by decide), splitSl_append_sep _ _ hnosl,
      splitSl_no_sep "assets".data (by decide)]
  have hE : own.data.isEmpty = false := by
    cases hc : own.data with
    | nil => exact absurd hc hne
    | cons a t => rfl
  have hcore : coreProjOwnerAssets
      ("projects".data ++ '/' :: (own.data ++ '/' :: "assets".data)) = true := by
    unfold coreProjOwnerAssets
    rw [hsplit]
    simp [hE]
  unfold scaffoldMatch
  rw [hdata, hjoin]
  have : dollarMatch coreProjOwnerAssets
      ("projects".data ++ '/' :: (own.data ++ '/' :: "assets".data)) = true := by
    unfold dollarMatch
    rw [hcore]
    rfl
  rw [this]
  simp

theorem filter_range_lt (m n : Nat) (h : m ≤ n) :
    (List.range n).filter (fun i => decide (i < m)) = List.range m := by
  induction n with
  | zero =>
    have hm : m = 0 := Nat.le_zero.mp h
    subst hm; rfl
  | succ k ih =>
    rw [List.range_succ, List.filter_append]
    by_cases hm : m = k + 1
    · subst hm
      have h1 : List.filter (fun i => decide (i < k + 1)) (List.range k) = List.range k :=
        List.filter_eq_self.mpr (fun a ha => by
          simp only [List.mem_range] at ha
          simp only [decide_eq_true_eq]
          omega)
      have h2 : List.filter (fun i => decide (i < k + 1)) [k] = [k] := by
        simp [List.filter_cons]
      rw [h1, h2, ← List.range_succ]
    · have hm' : m ≤ k := by omega
      have h2 : List.filter (fun i => decide (i < m)) [k] = [] := by
        simp only [List.filter_cons, List.filter_nil]
        rw [if_neg (by simp only [decide_eq_true_eq]; omega)]
      rw [ih hm', h2, List.append_nil]

end ParentsMain

/-- C7: for an absolute asset path of depth at least 4, `Asset.parents` is
exactly the list of proper prefixes of depth ≥ 4, deepest first: every
ancestor from the immediate parent downward is present, and none of the four
scaffolding prefixes — the empty path, `projects`, `projects/<owner>` and
`projects/<owner>/assets` — ever appears. -/
theorem asset_parents_spec (own : String) (rest : List String) (a : Asset)
    (ho : okComp own = true) (hr : ∀ c ∈ rest, okComp c = true) (hne : rest ≠ [])
    (ha : a.path = ⟨0, "projects" :: own :: "assets" :: rest⟩) :
    Asset.parents a
      = (List.range (rest.length - 1)).map
          (fun i => ⟨⟨0, "projects" :: own :: "assets" :: rest.take (rest.length - 1 - i)⟩⟩) ∧
    (∀ x ∈ Asset.parents a, 4 ≤ x.path.parts.length ∧
        x.path.parts = ("projects" :: own :: "assets" :: rest).take x.path.parts.length) ∧
    (⟨⟨0, ([] : List String)⟩⟩ : Asset) ∉ Asset.parents a ∧
    (⟨⟨0, ["projects"]⟩⟩ : Asset) ∉ Asset.parents a ∧
    (⟨⟨0, ["projects", own]⟩⟩ : Asset) ∉ Asset.parents a ∧
    (⟨⟨0, ["projects", own, "assets"]⟩⟩ : Asset) ∉ Asset.parents a := by
  have hfullok : ∀ c ∈ "projects" :: own :: "assets" :: rest, okComp c = true := by
    intro c hc
    rcases List.mem_cons.mp hc with rfl | hc
    · decide
    rcases List.mem_cons.mp hc with rfl | hc
    · exact ho
    rcases List.mem_cons.mp hc with rfl | hc
    · decide
    · exact hr c hc
  have hrlen : 1 ≤ rest.length := by
    cases rest with
    | nil => exact absurd rfl hne
    | cons c t => simp
  have hlen3 : ("projects" :: own :: "assets" :: rest).length = 3 + rest.length := by
    simp only [List.length_cons]
    omega
  have hstep1 : Asset.parents a
      = ((List.range ("projects" :: own :: "assets" :: rest).length).filter
            (fun i => !scaffoldMatch ⟨0, ("projects" :: own :: "assets" :: rest).take
              (("projects" :: own :: "assets" :: rest).length - 1 - i)⟩)).map
          (fun i => Asset.ofP ⟨0, ("projects" :: own :: "assets" :: rest).take
            (("projects" :: own :: "assets" :: rest).length - 1 - i)⟩) := by
    simp only [Asset.parents, PurePosixPath.parentsP, ha, List.filter_map, List.map_map]
    rfl
  have hcong : (List.range ("projects" :: own :: "assets" :: rest).length).filter
        (fun i => !scaffoldMatch ⟨0, ("projects" :: own :: "assets" :: rest).take
          (("projects" :: own :: "assets" :: rest).length - 1 - i)⟩)
      = (List.range ("projects" :: own :: "assets" :: rest).length).filter
          (fun i => decide (i < rest.length - 1)) := by
    apply List.filter_congr
    intro i hi
    rw [List.mem_range] at hi
    by_cases hik : i < rest.length - 1
    · have h4 : 4 ≤ ("projects" :: own :: "assets" :: rest).length - 1 - i := by omega
      have hk : ("projects" :: own :: "assets" :: rest).length - 1 - i
          ≤ ("projects" :: own :: "assets" :: rest).length := by omega
      have hdeep := scaffoldMatch_deep
        (("projects" :: own :: "assets" :: rest).take
          (("projects" :: own :: "assets" :: rest).length - 1 - i))
        (fun c hc => hfullok c (List.mem_of_mem_take hc))
        (by rw [List.length_take]; omega)
      rw [hdeep]
      simp [hik]
    · have hk3 : ("projects" :: own :: "assets" :: rest).length - 1 - i = 0 ∨
          ("projects" :: own :: "assets" :: rest).length - 1 - i = 1 ∨
          ("projects" :: own :: "assets" :: rest).length - 1 - i = 2 ∨
          ("projects" :: own :: "assets" :: rest).length - 1 - i = 3 := by omega
    
      rcases hk3 with hk | hk | hk | hk <;> rw [hk]
      · show (!scaffoldMatch ⟨0, []⟩) = decide (i < rest.length - 1)
        rw [scaffoldMatch_zero]
        simp [hik]
      · show (!scaffoldMatch ⟨0, ["projects"]⟩) = decide (i < rest.length - 1)
        rw [scaffoldMatch_one]
        simp [hik]
      · show (!scaffoldMatch ⟨0, ["projects", own]⟩) = decide (i < rest.length - 1)
        rw [scaffoldMatch_two own ho]
        simp [hik]
      · show (!scaffoldMatch ⟨0, ["projects", own, "assets"]⟩) = decide (i < rest.length - 1)
        rw [scaffoldMatch_three own ho]
        simp [hik]
  have hrange := filter_range_lt (rest.length - 1)
    ("projects" :: own :: "assets" :: rest).length (by omega)
  have hmain : Asset.parents a
      = (List.range (rest.length - 1)).map
          (fun i => ⟨⟨0, "projects" :: own :: "assets" :: rest.take (rest.length - 1 - i)⟩⟩) := by
    rw [hstep1, hcong, hrange]
    apply List.map_congr_left
    intro i hi
    rw [List.mem_range] at hi
    have hk : ("projects" :: own :: "assets" :: rest).length - 1 - i
        = (rest.length - 1 - i) + 3 := by omega
    rw [hk]
    show Asset.ofP ⟨0, "projects" :: own :: "assets" :: rest.take (rest.length - 1 - i)⟩ = _
    simp [Asset.ofP]
  have hpart2 : ∀ x ∈ Asset.parents a, 4 ≤ x.path.parts.length ∧
      x.path.parts = ("projects" :: own :: "assets" :: rest).take x.path.parts.length := by
    intro x hx
    rw [hmain] at hx
    rw [List.mem_map] at hx
    obtain ⟨i, hi, rfl⟩ := hx
    rw [List.mem_range] at hi
    have hxlen : (("projects" :: own :: "assets" :: rest.take (rest.length - 1 - i)) :
        List String).length = (rest.length - 1 - i) + 3 := by
      simp only [List.length_cons, List.length_take]
      omega
    constructor
    · show 4 ≤ (("projects" :: own :: "assets" :: rest.take (rest.length - 1 - i)) :
        List String).length
      rw [hxlen]
      omega
    · show ("projects" :: own :: "assets" :: rest.take (rest.length - 1 - i))
        = ("projects" :: own :: "assets" :: rest).take
            (("projects" :: own :: "assets" :: rest.take (rest.length - 1 - i)) :
              List String).length
      rw [hxlen]
      rfl
  refine ⟨hmain, hpart2, ?_, ?_, ?_, ?_⟩ <;>
    · intro hmem
      have h4 := (hpart2 _ hmem).1
      simp at h4

/-- Witness for C7 at a concrete depth-5 absolute path. -/
theorem asset_parents_witness :
    Asset.parents (Asset.of "projects/p/assets/folder/image")
      = (List.range (["folder", "image"].length - 1)).map
          (fun i => ⟨⟨0, "projects" :: "p" :: "assets" ::
            ["folder", "image"].take (["folder", "image"].length - 1 - i)⟩⟩) :=
  (asset_parents_spec "p" ["folder", "image"] (Asset.of "projects/p/assets/folder/image")
    (by decide) (by decide) (by decide) (by decide)).1

/-- `Asset.home()`: `Asset(f"projects/{project}/assets/")`, with the ambient
cloud project passed explicitly. -/
def Asset.home (proj : String) : Asset := Asset.of ("projects/" ++ proj ++ "/assets/")

/-- Replace the first occurrence of the character `c` by `new`
(`str.replace(old, new, 1)` for a one-character `old`). -/
def replFirstChar (c : Char) (new : List Char) : List Char → List Char
  | [] => []
  | x :: xs => if x = c then new ++ xs else x :: replFirstChar c new xs

/-- `self.as_posix().replace("~", new, 1)` at the string level. -/
def strReplaceFirst (s : String) (c : Char) (new : String) : String :=
  ⟨replFirstChar c new.data s.data⟩

/-- `Asset.expanduser`:
`Asset(self.as_posix().replace("~", self.home().as_posix(), 1))`. -/
def Asset.expanduser (proj : String) (a : Asset) : Asset :=
  Asset.of (strReplaceFirst a.posix '~' (Asset.home proj).posix)

/-- Specification helper: the component list after splicing the home
components into the component holding the first `"~"`. -/
def spliceComps (proj : String) : List String → List String
  | [] => []
  | c :: rest =>
    if '~' ∈ c.data then
      (⟨c.data.takeWhile (· ≠ '~') ++ "projects".data⟩ : String) :: proj ::
        (⟨"assets".data ++ (c.data.dropWhile (· ≠ '~')).tail⟩ : String) :: rest
    else c :: spliceComps proj rest

section ExpandLemmas

theorem replFirstChar_not_mem (c : Char) (new l : List Char) (h : c ∉ l) :
    replFirstChar c new l = l := by
  induction l with
  | nil => rfl
  | cons x xs ih =>
    have hx : x ≠ c := fun hh => h (hh ▸ List.mem_cons_self x xs)
    simp only [replFirstChar, if_neg hx]
    rw [ih (fun hh => h (List.mem_cons_of_mem x hh))]

theorem replFirstChar_append (c : Char) (new u t : List Char) (h : c ∉ u) :
    replFirstChar c new (u ++ t) = u ++ replFirstChar c new t := by
  induction u with
  | nil => rfl
  | cons x xs ih =>
    have hx : x ≠ c := fun hh => h (hh ▸ List.mem_cons_self x xs)
    simp only [List.cons_append, replFirstChar, if_neg hx, List.append_eq]
    rw [ih (fun hh => h (List.mem_cons_of_mem x hh))]

theorem replFirstChar_hit (c : Char) (new u v : List Char) (h : c ∉ u) :
    replFirstChar c new (u ++ c :: v) = u ++ new ++ v := by
  rw [replFirstChar_append c new u _ h]
  simp [replFirstChar, List.append_assoc]

theorem first_tilde_split (l : List Char) (h : '~' ∈ l) :
    l.takeWhile (· ≠ '~') ++ '~' :: (l.dropWhile (· ≠ '~')).tail = l ∧
      '~' ∉ l.takeWhile (· ≠ '~') := by
  constructor
  · induction l with
    | nil => simp at h
    | cons x xs ih =>
      by_cases hx : x = '~'
      · subst hx
        simp [List.takeWhile, List.dropWhile]
      · have hx' : (fun y => decide (y ≠ '~')) x = true := by simp [hx]
        rcases List.mem_cons.mp h with h1 | h1
        · exact absurd h1.symm hx
        · simp only [List.takeWhile, List.dropWhile, hx', List.cons_append]
          rw [ih h1]
  · intro hcon
    have := List.mem_takeWhile_imp hcon
    simp at this

theorem spliceComps_ne_nil (proj : String) (c : String) (rest : List String) :
    spliceComps proj (c :: rest) ≠ [] := by
  unfold spliceComps
  split <;> simp

theorem spliceComps_cons (proj : String) (c : String) (rest : List String) :
    spliceComps proj (c :: rest)
      = if '~' ∈ c.data then
          (⟨c.data.takeWhile (· ≠ '~') ++ "projects".data⟩ : String) :: proj ::
            (⟨"assets".data ++ (c.data.dropWhile (· ≠ '~')).tail⟩ : String) :: rest
        else c :: spliceComps proj rest := rfl

/-- Replacing the first `"~"` in a joined component list joins the spliced
component list. -/
theorem repl_joinChars (proj : String) (ls : List String) :
    replFirstChar '~' ("projects".data ++ '/' :: (proj.data ++ '/' :: "assets".data))
        (joinChars (ls.map String.data))
      = joinChars ((spliceComps proj ls).map String.data) := by
  induction ls with
  | nil => rfl
  | cons c rest ih =>
    by_cases hc : '~' ∈ c.data
    · obtain ⟨hsplit, hnotin⟩ := first_tilde_split c.data hc
      cases rest with
      | nil =>
        simp only [List.map_cons, List.map_nil, joinChars, spliceComps, if_pos hc]
        conv_lhs => rw [← hsplit]
        rw [replFirstChar_hit _ _ _ _ hnotin]
        have hmk : ∀ l : List Char, (⟨l⟩ : String).data = l := fun _ => rfl
        simp [hmk, joinChars, List.append_assoc, List.cons_append]
      | cons d r =>
        simp only [List.map_cons, joinChars, spliceComps, if_pos hc]
        have harg : c.data ++ '/' :: joinChars (d.data :: List.map String.data r)
            = c.data.takeWhile (· ≠ '~') ++ '~' :: ((c.data.dropWhile (· ≠ '~')).tail
                ++ '/' :: joinChars (d.data :: List.map String.data r)) := by
          conv_lhs => rw [← hsplit]
          simp [List.append_assoc]
        rw [harg, replFirstChar_hit _ _ _ _ hnotin]
        have hmk : ∀ l : List Char, (⟨l⟩ : String).data = l := fun _ => rfl
        simp [hmk, joinChars, List.append_assoc, List.cons_append]
    · cases rest with
      | nil =>
        simp only [List.map_cons, List.map_nil, joinChars, spliceComps, if_neg hc]
        exact replFirstChar_not_mem _ _ _ hc
      | cons d r =>
        rw [spliceComps_cons, if_neg hc]
        simp only [List.map_cons, joinChars]
        rw [replFirstChar_append _ _ _ _ hc]
        simp only [List.map_cons] at ih
        have hsep : replFirstChar '~'
            ("projects".data ++ '/' :: (proj.data ++ '/' :: "assets".data))
            ('/' :: joinChars (d.data :: List.map String.data r))
            = '/' :: replFirstChar '~'
                ("projects".data ++ '/' :: (proj.data ++ '/' :: "assets".data))
                (joinChars (d.data :: List.map String.data r)) := by
          simp [replFirstChar]
        rw [hsep, ih]
        rcases hs : spliceComps proj (d :: r) with _ | ⟨x, xs⟩
        · exact absurd hs (spliceComps_ne_nil proj d r)
        · simp [joinChars]

theorem spliceComps_wf (proj : String) (ls : List String) (hp : okComp proj = true)
    (h : ∀ c ∈ ls, okComp c = true) :
    ∀ c ∈ spliceComps proj ls, okComp c = true := by
  induction ls with
  | nil => intro c hc; simp [spliceComps] at hc
  | cons c rest ih =>
    intro x hx
    have hcok := okComp_data c (h c (List.mem_cons_self _ _))
    unfold spliceComps at hx
    split at hx
    · rename_i htl
      have htake : ∀ y ∈ c.data.takeWhile (· ≠ '~'), y ≠ '/' := by
        intro y hy
        intro hcon
        exact hcok.2.1 (hcon ▸ (List.takeWhile_sublist _).subset hy)
      have hdrop : ∀ y ∈ (c.data.dropWhile (· ≠ '~')).tail, y ≠ '/' := by
        intro y hy
        intro hcon
        exact hcok.2.1
          (hcon ▸ (List.dropWhile_sublist _).subset ((List.tail_sublist _).subset hy))
      rcases List.mem_cons.mp hx with rfl | hx
      · simp only [okComp, decide_eq_true_eq]
        refine ⟨by simp, ?_, ?_⟩
        · intro hcon
          rcases List.mem_append.mp hcon with hcon | hcon
          · exact htake _ hcon rfl
          · revert hcon; decide
        · intro hcon
          have := congrArg List.length hcon
          simp at this
      rcases List.mem_cons.mp hx with rfl | hx
      · exact hp
      rcases List.mem_cons.mp hx with rfl | hx
      · simp only [okComp, decide_eq_true_eq]
        refine ⟨by simp, ?_, ?_⟩
        · intro hcon
          rcases List.mem_append.mp hcon with hcon | hcon
          · revert hcon; decide
          · exact hdrop _ hcon rfl
        · intro hcon
          have := congrArg List.length hcon
          simp at this
      · exact h x (List.mem_cons_of_mem c hx)
    · rcases List.mem_cons.mp hx with rfl | hx
      · exact h x (List.mem_cons_self _ _)
      · exact ih (fun y hy => h y (List.mem_cons_of_mem c hy)) x hx

end ExpandLemmas

theorem parse_parts (s : String) :
    (PurePosixPath.parse s).parts
      = ((splitSl s.data).filter keptComp).map (fun c => ⟨c⟩) := rfl

theorem home_path (proj : String) (hp : okComp proj = true) :
    (Asset.home proj).path = ⟨0, ["projects", proj, "assets"]⟩ := by
  obtain ⟨hpne, hpnosl, hpdot⟩ := okComp_data proj hp
  have hdata : ("projects/" ++ proj ++ "/assets/").data
      = "projects".data ++ '/' :: (proj.data ++ '/' :: ("assets".data ++ ['/'])) := by
    rw [String.data_append, String.data_append]
    have h1 : "projects/".data = "projects".data ++ ['/'] := by decide
    have h2 : "/assets/".data = '/' :: ("assets".data ++ ['/']) := by decide
    rw [h1, h2]
    simp [List.append_assoc]
  have hsplit : splitSl ("projects/" ++ proj ++ "/assets/").data
      = ["projects".data, proj.data, "assets".data, []] := by
    rw [hdata, splitSl_append_sep _ _ (by decide), splitSl_append_sep _ _ hpnosl]
    have h3 : "assets".data ++ ['/'] = "assets".data ++ '/' :: [] := rfl
    rw [h3, splitSl_append_sep _ _ (by decide)]
    rfl
  have hkeep : List.filter keptComp ["projects".data, proj.data, "assets".data, []]
      = ["projects".data, proj.data, "assets".data] := by
    have hkp : keptComp proj.data = true := keptComp_of_ok proj hp
    have h1 : keptComp "projects".data = true := by decide
    have h2 : keptComp "assets".data = true := by decide
    have h3 : keptComp ([] : List Char) = false := rfl
    simp [List.filter_cons, hkp, h1, h2, h3]
  have hlead : leadSlashes ("projects/" ++ proj ++ "/assets/").data = 0 := by
    rw [hdata]
    exact leadSlashes_append _ _ (by decide) (by decide)
  have hparse : PurePosixPath.parse ("projects/" ++ proj ++ "/assets/")
      = ⟨0, ["projects", proj, "assets"]⟩ := by
    have hr := parse_root_cases ("projects/" ++ proj ++ "/assets/")
    rw [hlead] at hr
    simp only [if_pos rfl] at hr
    have hpt := parse_parts ("projects/" ++ proj ++ "/assets/")
    rw [hsplit, hkeep] at hpt
    cases hps : PurePosixPath.parse ("projects/" ++ proj ++ "/assets/") with
    | mk r l =>
      rw [hps] at hr hpt
      have hr2 : r = 0 := hr
      have hpt2 : l = List.map (fun c => (⟨c⟩ : String))
          ["projects".data, proj.data, "assets".data] := hpt
      rw [PurePosixPath.mk.injEq]
      exact ⟨hr2, by rw [hpt2]; rfl⟩
  unfold Asset.home Asset.of Asset.ofP
  rw [hparse]
  rfl

theorem home_posix_data (proj : String) (hp : okComp proj = true) :
    (Asset.home proj).posix.data
      = "projects".data ++ '/' :: (proj.data ++ '/' :: "assets".data) := by
  show (Asset.home proj).path.posix.data = _
  rw [home_path proj hp, posix_data0 _ (by simp)]
  rfl

/-- C10 (amended): for every asset whose stored path is relative (every asset
built from a string without the exactly-two-leading-slashes artifact),
`expanduser` performs exactly one textual replacement: the first `"~"`
anywhere in the posix string — leading or not — becomes the home prefix
`projects/<project>/assets`, later occurrences are untouched, and a path
containing no `"~"` is returned equal to itself. -/
theorem expanduser_spec (proj : String) (a : Asset) (hp : okComp proj = true)
    (hroot : a.path.root = 0) (hwf : ∀ c ∈ a.path.parts, okComp c = true) :
    (Asset.expanduser proj a).posix.data
      = replFirstChar '~' ("projects".data ++ '/' :: (proj.data ++ '/' :: "assets".data))
          a.posix.data ∧
    ('~' ∉ a.posix.data → Asset.eq (Asset.expanduser proj a) a = true) := by
  obtain ⟨⟨r, l⟩⟩ := a
  have hr : r = 0 := hroot
  subst hr
  have hwf' : ∀ c ∈ l, okComp c = true := hwf
  cases l with
  | nil =>
    have hdot : ('.' : Char) ≠ '~' := by decide
    have hd : strReplaceFirst (Asset.mk ⟨0, []⟩).posix '~' (Asset.home proj).posix = "." := by
      apply String.ext
      show replFirstChar '~' (Asset.home proj).posix.data ['.'] = ['.']
      simp [replFirstChar, hdot]
    have hexp : Asset.expanduser proj (Asset.mk ⟨0, []⟩) = Asset.of "." := by
      unfold Asset.expanduser
      rw [hd]
    constructor
    · rw [hexp]
      have hdd : replFirstChar '~'
          ("projects".data ++ '/' :: (proj.data ++ '/' :: "assets".data)) ['.'] = ['.'] := by
        simp [replFirstChar, hdot]
      show (Asset.of ".").posix.data = replFirstChar _ _ ['.']
      rw [hdd]
      decide
    · intro hnf
      rw [hexp]
      decide
  | cons c0 cs =>
    have hlne : c0 :: cs ≠ [] := by simp
    have hpos : (PurePosixPath.posix ⟨0, c0 :: cs⟩).data
        = joinChars ((c0 :: cs).map String.data) := posix_data0 _ hlne
    have hll : (Asset.mk ⟨0, c0 :: cs⟩).posix.data
        = joinChars ((c0 :: cs).map String.data) := hpos
    have hrepl := repl_joinChars proj (c0 :: cs)
    have hsne : spliceComps proj (c0 :: cs) ≠ [] := spliceComps_ne_nil proj c0 cs
    have hswf : ∀ c ∈ spliceComps proj (c0 :: cs), okComp c = true :=
      spliceComps_wf proj (c0 :: cs) hp hwf'
    have hpos2 : (PurePosixPath.posix ⟨0, spliceComps proj (c0 :: cs)⟩).data
        = joinChars ((spliceComps proj (c0 :: cs)).map String.data) := posix_data0 _ hsne
    -- the replaced string is the posix form of the spliced component list
    have hstr : strReplaceFirst (Asset.mk ⟨0, c0 :: cs⟩).posix '~' (Asset.home proj).posix
        = PurePosixPath.posix ⟨0, spliceComps proj (c0 :: cs)⟩ := by
      apply String.ext
      show replFirstChar '~' (Asset.home proj).posix.data
        (Asset.mk ⟨0, c0 :: cs⟩).posix.data = _
      rw [home_posix_data proj hp, hll, hrepl, hpos2]
    have hof : Asset.of (PurePosixPath.posix ⟨0, spliceComps proj (c0 :: cs)⟩)
        = ⟨⟨0, spliceComps proj (c0 :: cs)⟩⟩ := by
      unfold Asset.of Asset.ofP
      rw [parse_posix ⟨0, spliceComps proj (c0 :: cs)⟩ ⟨Nat.zero_le 2, hswf⟩]
      rfl
    have hexp : Asset.expanduser proj (Asset.mk ⟨0, c0 :: cs⟩)
        = ⟨⟨0, spliceComps proj (c0 :: cs)⟩⟩ := by
      unfold Asset.expanduser
      rw [hstr, hof]
    constructor
    · rw [hexp, hll]
      show (PurePosixPath.posix ⟨0, spliceComps proj (c0 :: cs)⟩).data = _
      rw [hpos2, hrepl]
    · intro hnf
      rw [hll] at hnf
      have hid : replFirstChar '~'
          ("projects".data ++ '/' :: (proj.data ++ '/' :: "assets".data))
          (joinChars ((c0 :: cs).map String.data))
          = joinChars ((c0 :: cs).map String.data) :=
        replFirstChar_not_mem _ _ _ hnf
      have hsame : spliceComps proj (c0 :: cs) = c0 :: cs := by
        have h1 := hrepl
        rw [hid] at h1
        have h2 := splitSl_joinChars ((c0 :: cs).map String.data)
          (fun x hx => by
            simp only [List.mem_map] at hx
            obtain ⟨y, hy, rfl⟩ := hx
            exact (okComp_data y (hwf' y hy)).2.1)
          (by simp) 
        have h3 := splitSl_joinChars ((spliceComps proj (c0 :: cs)).map String.data)
          (fun x hx => by
            simp only [List.mem_map] at hx
            obtain ⟨y, hy, rfl⟩ := hx
            exact (okComp_data y (hswf y hy)).2.1)
          (by
            intro hcon
            exact hsne (List.map_eq_nil_iff.mp hcon))
        rw [h1] at h2
        rw [h2] at h3
        have h4 : ((fun c : List Char => (⟨c⟩ : String)) ∘ String.data) = id :=
          funext fun c => rfl
        have := congrArg (List.map (fun c : List Char => (⟨c⟩ : String))) h3
        rw [List.map_map, List.map_map, h4, List.map_id, List.map_id] at this
        exact this.symm
      rw [hexp, hsame]
      have hre : PurePosixPath.parse (PurePosixPath.posix ⟨0, c0 :: cs⟩)
          = ⟨0, c0 :: cs⟩ := parse_posix _ ⟨Nat.zero_le 2, hwf'⟩
      simp [Asset.eq, pyPathEqB, Asset.posix, hre]

/-- C10 counterexample: for the asset built from `"//a"` (whose internal path
kept a leading slash), the path string contains no `"~"` yet `expanduser`
does not return an equal asset — the claim's "for every path" fails. -/
theorem expanduser_cex :
    '~' ∉ (Asset.of "//a").posix.data ∧
      Asset.eq (Asset.expanduser "p" (Asset.of "//a")) (Asset.of "//a") = false := by
  decide

/-- Witness for C10 at a concrete path holding `"~"` inside a non-leading
component. -/
theorem expanduser_witness :
    okComp "p" = true ∧ (Asset.of "x/~y/z").path.root = 0 ∧
      ((Asset.expanduser "p" (Asset.of "x/~y/z")).posix.data
          = replFirstChar '~' ("projects".data ++ '/' :: ("p".data ++ '/' :: "assets".data))
              (Asset.of "x/~y/z").posix.data ∧
        ('~' ∉ (Asset.of "x/~y/z").posix.data →
          Asset.eq (Asset.expanduser "p" (Asset.of "x/~y/z")) (Asset.of "x/~y/z") = true)) :=
  ⟨by decide, by decide,
    expanduser_spec "p" (Asset.of "x/~y/z") (by decide) (by decide) (by decide)⟩

/-!
## The remote store model

The `ee.data` collaborator (section 6 of the design): an opaque store
exposing `getAsset`, `listAssets`, `createAsset`, `copyAsset` and
`deleteAsset`.  The store is a finite association list from asset
identifiers (component lists; the wire format is the posix string of the
identifier) to type-tag strings, kept in the store's native listing order,
plus an audit log of every mutating call issued.  Python exceptions
propagate while already-performed mutations persist, so a failing
computation also carries its final state.
-/

/-- A mutating remote call, as recorded in the audit log. -/
inductive RCall where
  | createA (id : List String)
  | deleteA (id : List String)
  | copyA (src dst : List String)
deriving DecidableEq, Repr

/-- The remote asset store plus the audit log of mutating calls. -/
structure Store where
  assets : List (List String × String)
  log : List RCall
deriving DecidableEq, Repr

/-- The error kinds of the design (section 7). -/
inductive Err where
  | notFound (id : String)
  | alreadyExists (id : String)
  | wrongType (id : String) (t : String)
  | invalidStructure (msg : String)
  | folderNotEmpty (id : String)
  | recursionLimit
deriving DecidableEq, Repr

/-- Outcome of a stateful computation; errors keep the reached state. -/
inductive Res (α : Type) where
  | ok (a : α) (st : Store)
  | err (e : Err) (st : Store)
deriving DecidableEq, Repr

/-- The state-and-exceptions monad of the embedding. -/
def M (α : Type) := Store → Res α

/-- Return a value, leaving the store unchanged. -/
def M.pure {α : Type} (a : α) : M α := fun st => .ok a st

/-- Sequencing: mutations performed before an exception persist. -/
def M.bind {α β : Type} (x : M α) (f : α → M β) : M β := fun st =>
  match x st with
  | .ok a st' => f a st'
  | .err e st' => .err e st'

instance : Monad M where
  pure := M.pure
  bind := M.bind

/-- Raise an exception. -/
def M.throw {α : Type} (e : Err) : M α := fun st => .err e st

/-- A read-only query of the store. -/
def M.read {α : Type} (f : Store → α) : M α := fun st => .ok (f st) st

/-- Association-list lookup by identifier. -/
def lookupA : List (List String × String) → List String → Option String
  | [], _ => none
  | e :: rest, id => if e.1 = id then some e.2 else lookupA rest id

/-- The posix identifier string of a component list. -/
def posixOf (id : List String) : String := PurePosixPath.posix ⟨0, id⟩

/-- `ee.data.getAsset` (read-only): the record of one identifier, if any. -/
def Store.getAsset (st : Store) (id : List String) : Option String := lookupA st.assets id

/-- `ee.data.listAssets({"parent": id})` (read-only): one level of children
in the store's native order. -/
def Store.listAssets (st : Store) (id : List String) : List (List String × String) :=
  st.assets.filter (fun e => decide (e.1.length = id.length + 1) && id.isPrefixOf e.1)

/-- `ee.data.createAsset({"type": "FOLDER"}, id)`: create a folder node;
fails if the identifier already has a record. -/
def Store.createAssetM (id : List String) : M Unit := fun st =>
  match lookupA st.assets id with
  | some _ => .err (.alreadyExists (posixOf id)) st
  | none => .ok () ⟨st.assets ++ [(id, "FOLDER")], st.log ++ [.createA id]⟩

/-- `ee.data.deleteAsset(id)`: delete one node; the node must exist and, if
it is a folder, must be empty. -/
def Store.deleteAssetM (id : List String) : M Unit := fun st =>
  match lookupA st.assets id with
  | none => .err (.notFound (posixOf id)) st
  | some t =>
    if t = "FOLDER" && !(Store.listAssets st id).isEmpty then
      .err (.folderNotEmpty (posixOf id)) st
    else
      .ok () ⟨st.assets.filter (fun e => !decide (e.1 = id)), st.log ++ [.deleteA id]⟩

/-- `ee.data.copyAsset(src, dst, allowOverwrite=True)`: server-side copy of
one leaf; the source must exist and any record at the destination is
replaced. -/
def Store.copyAssetM (src dst : List String) : M Unit := fun st =>
  match lookupA st.assets src with
  | none => .err (.notFound (posixOf src)) st
  | some t =>
    .ok () ⟨(st.assets.filter (fun e => !decide (e.1 = dst))) ++ [(dst, t)],
      st.log ++ [.copyA src dst]⟩

/-- `Asset.exists`: `getAsset` succeeding; on absence, raise when `raised`
else report `False`. -/
def Asset.existsM (a : Asset) (raised : Bool) : M Bool := fun st =>
  match st.getAsset a.path.parts with
  | some _ => .ok true st
  | none => if raised then .err (.notFound a.posix) st else .ok false st

/-- `Asset.type`: `exists(raised=True)` then the record's `"type"` field
(the second fresh `getAsset` reads the same unchanged store). -/
def Asset.typeM (a : Asset) : M String := fun st =>
  match st.getAsset a.path.parts with
  | some t => .ok t st
  | none => .err (.notFound a.posix) st

/-- `Asset.is_type`: `exists(raised=True)`, then compare `self.type` with
the wanted tag; a mismatch raises when `raised` and else reports `False`. -/
def Asset.is_type (a : Asset) (t : String) (raised : Bool) : M Bool := do
  let _ ← a.existsM true
  let ty ← a.typeM
  if ty = t then pure true
  else if raised then M.throw (.wrongType a.posix t) else pure false

/-- `Asset.is_folder`. -/
def Asset.is_folder (a : Asset) (raised : Bool) : M Bool := a.is_type "FOLDER" raised

/-- `Asset.is_feature_collection`:
`self.is_type("FEATURE_COLLECTION", raised) or self.is_type("TABLE", raised)`;
Python evaluates the first call fully (it may raise) before the `or`
short-circuits. -/
def Asset.is_feature_collection (a : Asset) (raised : Bool) : M Bool := do
  let b ← a.is_type "FEATURE_COLLECTION" raised
  if b then pure true else a.is_type "TABLE" raised

/-- `Asset.is_absolute()` (structural): `parts[0] == "projects" and
parts[2] == "assets"`. -/
def Asset.is_absoluteB (a : Asset) : Bool :=
  decide (a.parts.get? 0 = some "projects") && decide (a.parts.get? 2 = some "assets")

/-- `Asset.is_absolute(raised=True)`. -/
def Asset.is_absolute_raised (a : Asset) : M Unit := fun st =>
  if a.is_absoluteB then .ok () st else .err (.invalidStructure a.posix) st

/-- `Asset.is_project()` (structural): absolute with exactly 3 parts. -/
def Asset.is_projectB (a : Asset) : Bool :=
  a.is_absoluteB && decide (a.parts.length = 3)

/-- The longest identifier length present in the store. -/
def Store.maxLen (st : Store) : Nat := (st.assets.map (fun e => e.1.length)).foldr max 0

theorem length_le_fold (l : List (List String × String)) (e : List String × String)
    (he : e ∈ l) : e.1.length ≤ (l.map (fun x => x.1.length)).foldr max 0 := by
  induction l with
  | nil => simp at he
  | cons x rest ih =>
    rcases List.mem_cons.mp he with rfl | he
    · simp only [List.map_cons, List.foldr_cons]
      exact le_max_left _ _
    · simp only [List.map_cons, List.foldr_cons]
      exact le_trans (ih he) (le_max_right _ _)

theorem length_le_maxLen (st : Store) (e : List String × String) (he : e ∈ st.assets) :
    e.1.length ≤ st.maxLen := length_le_fold st.assets e he

theorem mem_listAssets (st : Store) (id : List String) (e : List String × String) :
    e ∈ st.listAssets id ↔ e ∈ st.assets ∧ e.1.length = id.length + 1 ∧ id <+: e.1 := by
  unfold Store.listAssets
  rw [List.mem_filter]
  constructor
  · rintro ⟨h1, h2⟩
    rw [Bool.and_eq_true, decide_eq_true_eq] at h2
    exact ⟨h1, h2.1, List.isPrefixOf_iff_prefix.mp h2.2⟩
  · rintro ⟨h1, h2, h3⟩
    refine ⟨h1, ?_⟩
    rw [Bool.and_eq_true, decide_eq_true_eq]
    exact ⟨h2, List.isPrefixOf_iff_prefix.mpr h3⟩

/-- The recursive accumulation of `Asset.iterdir(recursive=True)`
(`_recursive_get`): children in native listing order, each child followed by
its own recursively listed subtree when its reported type is FOLDER. -/
def recGet (st : Store) (id : List String) : List (List String) :=
  (st.listAssets id).attach.flatMap (fun e =>
    e.1.1 :: (if e.1.2 = "FOLDER" then recGet st e.1.1 else []))
termination_by st.maxLen + 1 - id.length
decreasing_by
  have hmem := (mem_listAssets st id e.1).mp e.2
  have h1 := length_le_maxLen st e.1 hmem.1
  have h2 := hmem.2.1
  omega

/-- The sanity check at the top of `Asset.iterdir`:
`self.is_project() or self.is_type("FOLDER", raised=True)`. -/
def Asset.listCheck (a : Asset) : M Unit := do
  if a.is_projectB then pure ()
  else do
    let _ ← a.is_type "FOLDER" true
    pure ()

/-- `Asset.iterdir`: after the sanity check, one `listAssets` call when not
recursive, and the depth-first accumulation otherwise; every listed
identifier string is wrapped back through the `Asset` constructor. -/
def Asset.iterdirM (a : Asset) (recursive : Bool) : M (List Asset) := do
  let _ ← a.listCheck
  if recursive then
    M.read (fun st => (recGet st a.path.parts).map (fun id => Asset.of (posixOf id)))
  else
    M.read (fun st => (st.listAssets a.path.parts).map (fun e => Asset.of (posixOf e.1)))

/-- `for p in reversed(to_be_created): ee.data.createAsset({"type": "FOLDER"}, p)`,
as a left-to-right loop over the already-reversed list. -/
def createSeq : List Asset → M Unit
  | [] => pure ()
  | p :: rest => do
    let _ ← Store.createAssetM p.path.parts
    createSeq rest

/-- `Asset.mkdir`: require an absolute path, collect the non-existing
parents, apply the `exist_ok` / `parents` gates, then create every needed
folder from the shallowest down. -/
def Asset.mkdirM (a : Asset) (parents exist_ok : Bool) : M Asset := do
  let _ ← a.is_absolute_raised
  let toBe0 ← M.read (fun st =>
    (Asset.parents a).filter (fun p => (st.getAsset p.path.parts).isNone))
  let selfExists ← M.read (fun st => (st.getAsset a.path.parts).isSome)
  if selfExists && !exist_ok then
    M.throw (.alreadyExists a.posix)
  else do
    let toBe := if selfExists then toBe0 else a :: toBe0
    if toBe.length > 1 && !parents then
      M.throw (.invalidStructure (((toBe.getLast?).getD a).posix))
    else do
      let _ ← createSeq toBe.reverse
      pure a

/-- `Asset.unlink`: `exists(raised=True)` then one `deleteAsset`. -/
def Asset.unlinkM (a : Asset) : M Unit := do
  let _ ← a.existsM true
  Store.deleteAssetM a.path.parts

/-- The depth bucketing of `Asset.rmdir`: group the listed identifiers by
component count (buckets in encounter order) and concatenate the buckets by
strictly decreasing depth. -/
def bucketsDesc (l : List (List String)) : List (List String) :=
  (((l.map List.length).dedup).mergeSort (fun x y => decide (y ≤ x))).flatMap
    (fun k => l.filter (fun id => decide (id.length = k)))

/-- Sequential deletion: each identifier is recorded and then deleted. -/
def deleteSeq : List (List String) → M Unit
  | [] => pure ()
  | id :: rest => do
    let _ ← Store.deleteAssetM id
    deleteSeq rest

/-- `Asset.rmdir`: require a FOLDER; default `dry_run` to `recursive`; when
recursive, list the whole subtree and delete the deepest depth buckets
first; delete the folder itself last; return the recorded identifier
strings (in live mode the value is only reached when every delete
succeeded). -/
def Asset.rmdirM (a : Asset) (recursive : Bool) (dry_run : Option Bool) :
    M (List String) := do
  let _ ← a.is_type "FOLDER" true
  let dry := dry_run.getD recursive
  let subIds ← (if recursive then do
      let lst ← a.iterdirM true
      pure (bucketsDesc (lst.map (fun x => x.path.parts)))
    else pure [])
  let ids := subIds ++ [a.path.parts]
  if dry then
    pure (ids.map posixOf)
  else do
    let _ ← deleteSeq ids
    pure (ids.map posixOf)

/-- `Asset.__truediv__` restricted to joining a relative component list, as
used by `move` (`new_asset / asset._path.relative_to(self._path)`). -/
def Asset.div (a : Asset) (relParts : List String) : Asset :=
  ⟨⟨a.path.root, a.path.parts ++ relParts⟩⟩

/-- The loop of `Asset.move` over the immediate children: each child is
recursively moved to the destination joined with the child's path relative
to the source. -/
def moveLoop (step : Asset → Asset → M Asset) (a newAsset : Asset) : List Asset → M Unit
  | [] => pure ()
  | c :: rest => do
    let _ ← step c (newAsset.div (c.path.parts.drop a.path.parts.length))
    moveLoop step a newAsset rest

/-- `Asset.move`: refuse an existing destination unless `overwrite`;
materialize the destination's parents; a folder is moved by recursively
moving each immediate child, a leaf by one server-side copy; the source node
itself is deleted at the end of its own call.  The fuel models Python's
recursion limit. -/
def Asset.moveF : Nat → Asset → Asset → Bool → M Asset
  | 0, _, _, _ => M.throw .recursionLimit
  | fuel + 1, a, newAsset, overwrite => do
    let dstExists ← newAsset.existsM false
    if dstExists && !overwrite then
      M.throw (.alreadyExists newAsset.posix)
    else do
      let _ ← (Asset.parent newAsset).mkdirM true true
      let isF ← a.is_folder false
      let _ ← (if isF then do
          let _ ← newAsset.mkdirM true true
          let children ← a.iterdirM false
          moveLoop (fun c loc => Asset.moveF fuel c loc overwrite) a newAsset children
        else do
          let _ ← Store.copyAssetM a.path.parts newAsset.path.parts
          pure ())
      let _ ← a.unlinkM
      pure newAsset

section MonadLemmas

theorem pureM {α : Type} (a : α) (st : Store) : (pure a : M α) st = .ok a st := rfl

theorem throwM {α : Type} (e : Err) (st : Store) : (M.throw e : M α) st = .err e st := rfl

theorem readM {α : Type} (f : Store → α) (st : Store) : (M.read f) st = .ok (f st) st := rfl

theorem bindM_ok {α β : Type} (x : M α) (f : α → M β) (st st' : Store) (a : α)
    (h : x st = .ok a st') : (x >>= f) st = f a st' := by
  show M.bind x f st = _
  unfold M.bind
  rw [h]

theorem bindM_err {α β : Type} (x : M α) (f : α → M β) (st st' : Store) (e : Err)
    (h : x st = .err e st') : (x >>= f) st = .err e st' := by
  show M.bind x f st = _
  unfold M.bind
  rw [h]

end MonadLemmas

theorem bind_eq {α β : Type} (x : M α) (f : α → M β) : x >>= f = M.bind x f := rfl

theorem pure_eq {α : Type} (a : α) : (pure a : M α) = M.pure a := rfl

/-- C8: evaluation at the failing input.  On a store holding one asset of
type TABLE, `is_feature_collection` answers `True` in boolean mode — a TABLE
is a feature collection — yet with the raise toggle set it raises
"not a FEATURE_COLLECTION", because the first `is_type` call raises before
the TABLE alternative of the `or` is ever evaluated. -/
theorem is_feature_collection_bug :
    Asset.is_feature_collection (Asset.of "projects/p/assets/t") false
        ⟨[(["projects", "p", "assets", "t"], "TABLE")], []⟩
      = Res.ok true ⟨[(["projects", "p", "assets", "t"], "TABLE")], []⟩ ∧
    Asset.is_feature_collection (Asset.of "projects/p/assets/t") true
        ⟨[(["projects", "p", "assets", "t"], "TABLE")], []⟩
      = Res.err (Err.wrongType "projects/p/assets/t" "FEATURE_COLLECTION")
          ⟨[(["projects", "p", "assets", "t"], "TABLE")], []⟩ := by
  constructor
  · rfl
  · rfl

/-- C6: `mkdir(parents=False)` on an absolute, not yet existing path with at
least one missing ancestor raises `InvalidStructure` naming the shallowest
missing ancestor (the first parent that would have to be created), and the
store — including the audit log of `createAsset` calls — is left untouched. -/
theorem mkdir_no_parents_spec (st : Store) (a : Asset)
    (habs : a.is_absoluteB = true)
    (hnex : st.getAsset a.path.parts = none)
    (hmiss : (Asset.parents a).filter (fun p => (st.getAsset p.path.parts).isNone) ≠ []) :
    ∃ q : Asset,
      ((Asset.parents a).filter (fun p => (st.getAsset p.path.parts).isNone)).getLast?
          = some q ∧
        Asset.mkdirM a false false st = Res.err (Err.invalidStructure q.posix) st := by
  rcases htb : (Asset.parents a).filter (fun p => (st.getAsset p.path.parts).isNone)
    with _ | ⟨q0, qs⟩
  · exact absurd htb hmiss
  obtain ⟨q, hq⟩ : ∃ q, (q0 :: qs).getLast? = some q :=
    ⟨(q0 :: qs).getLast (by simp), List.getLast?_eq_getLast _ _⟩
  refine ⟨q, by rw [htb]; exact hq, ?_⟩
  have h1 : Asset.is_absolute_raised a st = .ok () st := by
    simp [Asset.is_absolute_raised, habs]
  unfold Asset.mkdirM
  simp only [bind_eq, M.bind, h1, readM, M.read, htb, hnex, Option.isSome_none,
    Bool.false_and, Bool.not_false, Bool.and_true, if_false, Bool.false_eq_true,
    ite_false, throwM, M.throw, List.length_cons, hq, List.getLast?_cons_cons,
    Option.getD_some]
  simp [hq, M.throw]

/-- Witness: `mkdir(parents=False)` on `projects/p/assets/x/y` over an empty
store fails naming the missing parent and leaves the store untouched. -/
theorem mkdir_no_parents_witness :
    ∃ q : Asset,
      ((Asset.parents (Asset.of "projects/p/assets/x/y")).filter
          (fun p => ((⟨[], []⟩ : Store).getAsset p.path.parts).isNone)).getLast?
          = some q ∧
        Asset.mkdirM (Asset.of "projects/p/assets/x/y") false false ⟨[], []⟩
          = Res.err (Err.invalidStructure q.posix) ⟨[], []⟩ :=
  mkdir_no_parents_spec ⟨[], []⟩ (Asset.of "projects/p/assets/x/y")
    (by decide) rfl (by decide)

section StoreLemmas

/-- Store well-formedness: identifiers are nonempty lists of valid
components, pairwise distinct. -/
def Store.Wf (st : Store) : Prop :=
  (∀ e ∈ st.assets, e.1 ≠ [] ∧ ∀ c ∈ e.1, okComp c = true) ∧
    (st.assets.map (fun e => e.1)).Nodup

/-- The subtree below `p` is fully materialized: every strict extension of
`p` in the store has all its intermediate prefixes (from `p` on) present as
FOLDER records. -/
def Store.Closed (st : Store) (p : List String) : Prop :=
  ∀ e ∈ st.assets, p <+: e.1 → ∀ k < e.1.length, p.length ≤ k →
    st.getAsset (e.1.take k) = some "FOLDER"

theorem lookupA_some_mem {l : List (List String × String)} {id : List String} {t : String}
    (h : lookupA l id = some t) : (id, t) ∈ l := by
  induction l with
  | nil => simp [lookupA] at h
  | cons e rest ih =>
    unfold lookupA at h
    split at h
    · rename_i heq
      injection h with h
      subst h
      exact (by rw [← heq]; exact List.mem_cons_self _ _)
    · exact List.mem_cons_of_mem _ (ih h)

theorem lookupA_none_iff {l : List (List String × String)} {id : List String} :
    lookupA l id = none ↔ id ∉ l.map (fun e => e.1) := by
  induction l with
  | nil => simp [lookupA]
  | cons e rest ih =>
    unfold lookupA
    split
    · rename_i heq
      simp [heq.symm]
    · rename_i hne
      simp only [List.map_cons, List.mem_cons]
      constructor
      · intro h hcon
        rcases hcon with hcon | hcon
        · exact hne hcon.symm
        · exact ih.mp h hcon
      · intro h
        exact ih.mpr (fun hcon => h (Or.inr hcon))

theorem mem_lookupA {l : List (List String × String)} {id : List String} {t : String}
    (hnd : (l.map (fun e => e.1)).Nodup) (h : (id, t) ∈ l) : lookupA l id = some t := by
  induction l with
  | nil => simp at h
  | cons e rest ih =>
    simp only [List.map_cons, List.nodup_cons] at hnd
    rcases List.mem_cons.mp h with rfl | h
    · simp [lookupA]
    · unfold lookupA
      split
      · rename_i heq
        exact absurd (heq ▸ (List.mem_map.mpr ⟨_, h, rfl⟩)) hnd.1
      · exact ih hnd.2 h

theorem lookupA_isSome {l : List (List String × String)} {id : List String}
    (h : id ∈ l.map (fun e => e.1)) : ∃ t, lookupA l id = some t := by
  rcases hl : lookupA l id with _ | t
  · exact absurd h (lookupA_none_iff.mp hl)
  · exact ⟨t, rfl⟩

/-- `recGet` without the `attach` wrapper. -/
theorem recGet_eq (st : Store) (p : List String) :
    recGet st p = (st.listAssets p).flatMap (fun e =>
      e.1 :: (if e.2 = "FOLDER" then recGet st e.1 else [])) := by
  rw [recGet]
  have h1 : (st.listAssets p).attach.flatMap (fun e =>
        e.1.1 :: (if e.1.2 = "FOLDER" then recGet st e.1.1 else []))
      = ((st.listAssets p).attach.map Subtype.val).flatMap (fun e =>
          e.1 :: (if e.2 = "FOLDER" then recGet st e.1 else [])) := by
    rw [List.flatMap_map]
  have h2 : List.map Subtype.val (st.listAssets p).attach = st.listAssets p := by simp
  rw [h1, h2]

theorem mem_recGet_src (st : Store) :
    ∀ (n : Nat) (p x : List String), st.maxLen + 1 - p.length ≤ n → x ∈ recGet st p →
      ∃ t, (x, t) ∈ st.assets ∧ p <+: x ∧ x ≠ p := by
  intro n
  induction n with
  | zero =>
    intro p x hn hx
    rw [recGet_eq] at hx
    rw [List.mem_flatMap] at hx
    obtain ⟨e, he, -⟩ := hx
    have := (mem_listAssets st p e).mp he
    have := length_le_maxLen st e this.1
    omega
  | succ n ih =>
    intro p x hn hx
    rw [recGet_eq] at hx
    rw [List.mem_flatMap] at hx
    obtain ⟨e, he, hx⟩ := hx
    obtain ⟨hmem, hlen, hpre⟩ := (mem_listAssets st p e).mp he
    rcases List.mem_cons.mp hx with rfl | hx
    · exact ⟨e.2, hmem, hpre, fun hcon => by rw [hcon] at hlen; omega⟩
    · split at hx
      · have hn' : st.maxLen + 1 - e.1.length ≤ n := by
          have := length_le_maxLen st e hmem
          omega
        obtain ⟨t, ht, hpre', hne'⟩ := ih e.1 x hn' hx
        refine ⟨t, ht, hpre.trans hpre', ?_⟩
        have := hpre'.length_le
        intro hcon
        rw [hcon] at this
        omega
      · simp at hx

theorem closed_mono (st : Store) (p c : List String) (h : st.Closed p) (hpc : p <+: c) :
    st.Closed c := by
  intro e he hce k hk2 hk1
  exact h e he (hpc.trans hce) k hk2 (le_trans hpc.length_le hk1)

/-- All intermediate prefixes of `x` strictly between `p` and `x` are FOLDER
records — listing descends only through such chains. -/
def ChainFolders (st : Store) (p x : List String) : Prop :=
  ∀ k, p.length < k → k < x.length → st.getAsset (x.take k) = some "FOLDER"

theorem closed_chain (st : Store) (p x : List String) (t : String) (hcl : st.Closed p)
    (hmem : (x, t) ∈ st.assets) (hpre : p <+: x) : ChainFolders st p x :=
  fun k hk1 hk2 => hcl (x, t) hmem hpre k hk2 (le_of_lt hk1)

theorem mem_recGet_tgt (st : Store) :
    ∀ (n : Nat) (p x : List String) (t : String), x.length ≤ p.length + n →
      ChainFolders st p x → (x, t) ∈ st.assets → p <+: x → x ≠ p → x ∈ recGet st p := by
  intro n
  induction n with
  | zero =>
    intro p x t hn hcl hmem hpre hne
    exact absurd (hpre.eq_of_length_le (by omega)).symm hne
  | succ n ih =>
    intro p x t hn hcl hmem hpre hne
    have hlt : p.length < x.length := by
      rcases Nat.lt_or_ge p.length x.length with h | h
      · exact h
      · exact absurd (hpre.eq_of_length_le h).symm hne
    rw [recGet_eq, List.mem_flatMap]
    by_cases hdir : x.length = p.length + 1
    · refine ⟨(x, t), (mem_listAssets st p (x, t)).mpr ⟨hmem, hdir, hpre⟩, ?_⟩
      exact List.mem_cons_self _ _
    · -- descend through the intermediate child c = x.take (p.length + 1)
      have hk : p.length + 1 < x.length := by omega
      have hcfold : st.getAsset (x.take (p.length + 1)) = some "FOLDER" :=
        hcl (p.length + 1) (by omega) hk
      have hcmem : (x.take (p.length + 1), "FOLDER") ∈ st.assets :=
        lookupA_some_mem hcfold
      have hclen : (x.take (p.length + 1)).length = p.length + 1 := by
        rw [List.length_take]
        omega
      have hcpre : p <+: x.take (p.length + 1) := by
        rw [List.prefix_take_iff]
        exact ⟨hpre, by omega⟩
      refine ⟨(x.take (p.length + 1), "FOLDER"),
        (mem_listAssets st p _).mpr ⟨hcmem, hclen, hcpre⟩, ?_⟩
      refine List.mem_cons_of_mem _ ?_
      rw [if_pos rfl]
      have hchain2 : ChainFolders st (x.take (p.length + 1)) x := by
        intro k hk1 hk2
        rw [hclen] at hk1
        exact hcl k (by omega) hk2
      refine ih (x.take (p.length + 1)) x t (by rw [hclen]; omega)
        hchain2 hmem (List.take_prefix _ _) ?_
      intro hcon
      have := congrArg List.length hcon
      rw [hclen] at this
      omega

end StoreLemmas

section StoreLemmas2

theorem listAssets_fst_nodup (st : Store) (hwf : st.Wf) (p : List String) :
    ((st.listAssets p).map (fun e => e.1)).Nodup := by
  have hsub : ((st.listAssets p).map (fun e => e.1)).Sublist
      (st.assets.map (fun e => e.1)) := (List.filter_sublist st.assets).map _
  exact hsub.nodup hwf.2

/-- Every member of a child block (the child itself, or any of its recursive
descendants) has that child as its first `p.length + 1` components. -/
theorem recGet_block_take (st : Store) (p : List String) (e : List String × String)
    (he : e ∈ st.listAssets p) (x : List String)
    (hx : x ∈ e.1 :: (if e.2 = "FOLDER" then recGet st e.1 else [])) :
    x.take (p.length + 1) = e.1 := by
  obtain ⟨hmem, hlen, hpre⟩ := (mem_listAssets st p e).mp he
  rcases List.mem_cons.mp hx with rfl | hx
  · rw [← hlen]
    exact List.take_length e.1
  · split at hx
    · obtain ⟨t, ht, hpre2, hne2⟩ := mem_recGet_src st (st.maxLen + 1 - e.1.length) e.1 x
        (le_refl _) hx
      have := List.prefix_iff_eq_take.mp hpre2
      rw [← hlen]
      exact this.symm
    · simp at hx

theorem recGet_nodup (st : Store) (hwf : st.Wf) :
    ∀ (n : Nat) (p : List String), st.maxLen + 1 - p.length ≤ n →
      (recGet st p).Nodup := by
  intro n
  induction n with
  | zero =>
    intro p hn
    rw [recGet_eq]
    have hempty : st.listAssets p = [] := by
      rcases he : st.listAssets p with _ | ⟨e, rest⟩
      · rfl
      · have hmem := (mem_listAssets st p e).mp (by rw [he]; exact List.mem_cons_self _ _)
        have := length_le_maxLen st e hmem.1
        omega
    rw [hempty]
    exact List.nodup_nil
  | succ n ih =>
    intro p hn
    rw [recGet_eq, List.nodup_flatMap]
    constructor
    · intro e he
      rw [List.nodup_cons]
      constructor
      · intro hcon
        split at hcon
        · obtain ⟨t, ht, hpre2, hne2⟩ := mem_recGet_src st (st.maxLen + 1 - e.1.length)
            e.1 e.1 (le_refl _) hcon
          exact hne2 rfl
        · simp at hcon
      · split
        · rename_i hF
          have hmem := (mem_listAssets st p e).mp he
          have := length_le_maxLen st e hmem.1
          exact ih e.1 (by omega)
        · exact List.nodup_nil
    · have hnd : (st.listAssets p).Nodup :=
        ((listAssets_fst_nodup st hwf p).of_map _)
      refine hnd.pairwise_of_forall_ne ?_
      intro a ha b hb hne
      intro x hxa hxb
      have h1 := recGet_block_take st p a ha x hxa
      have h2 := recGet_block_take st p b hb x hxb
      exact hne (List.inj_on_of_nodup_map (listAssets_fst_nodup st hwf p) ha hb
        (by rw [← h1, ← h2]))

end StoreLemmas2

section BucketLemmas

theorem flatMap_congr_mem {α β : Type} (l : List α) (f g : α → List β)
    (h : ∀ a ∈ l, f a = g a) : l.flatMap f = l.flatMap g := by
  induction l with
  | nil => rfl
  | cons a rest ih =>
    simp only [List.flatMap_cons]
    rw [h a (List.mem_cons_self _ _), ih (fun x hx => h x (List.mem_cons_of_mem a hx))]

theorem flatMap_filter_perm (K : List Nat) :
    ∀ l : List (List String), K.Nodup → (∀ id ∈ l, id.length ∈ K) →
      List.Perm (K.flatMap (fun k => l.filter (fun id => decide (id.length = k)))) l := by
  induction K with
  | nil =>
    intro l hnd hcov
    rcases l with _ | ⟨x, rest⟩
    · simp
    · exact absurd (hcov x (List.mem_cons_self _ _)) (by simp)
  | cons k ks ih =>
    intro l hnd hcov
    rw [List.nodup_cons] at hnd
    simp only [List.flatMap_cons]
    have hrest : ks.flatMap (fun k' => l.filter (fun id => decide (id.length = k')))
        = ks.flatMap (fun k' =>
            (l.filter (fun id => !decide (id.length = k))).filter
              (fun id => decide (id.length = k'))) := by
      apply flatMap_congr_mem
      intro k' hk'
      rw [List.filter_filter]
      apply List.filter_congr
      intro x hx
      by_cases hxk : x.length = k'
      · have hk2 : ¬ (k' = k) := fun hcon => hnd.1 (hcon ▸ hk')
        have h1 : decide (x.length = k') = true := by simp [hxk]
        have h2 : (!decide (x.length = k)) = true := by
          simp only [Bool.not_eq_true']
          simp [hxk, hk2]
        rw [h1, h2, Bool.and_true]
      · have h1 : decide (x.length = k') = false := by simp [hxk]
        rw [h1, Bool.false_and]
    rw [hrest]
    have hcov' : ∀ id ∈ l.filter (fun id => !decide (id.length = k)), id.length ∈ ks := by
      intro id hid
      rw [List.mem_filter] at hid
      have := hcov id hid.1
      rcases List.mem_cons.mp this with h | h
      · have hne : id.length ≠ k := by simpa using hid.2
        exact absurd h hne
      · exact h
    have hperm := ih (l.filter (fun id => !decide (id.length = k))) hnd.2 hcov'
    exact List.Perm.trans (List.Perm.append_left _ hperm) (List.filter_append_perm _ l)

theorem bucketsDesc_perm (l : List (List String)) : List.Perm (bucketsDesc l) l := by
  unfold bucketsDesc
  have hkeys : ((l.map List.length).dedup.mergeSort (fun x y => decide (y ≤ x))).Nodup := by
    have := (l.map List.length).nodup_dedup
    exact ((List.mergeSort_perm _ _).nodup_iff).mpr this
  have hcov : ∀ id ∈ l, id.length ∈
      (l.map List.length).dedup.mergeSort (fun x y => decide (y ≤ x)) := by
    intro id hid
    rw [(List.mergeSort_perm _ _).mem_iff, List.mem_dedup]
    exact List.mem_map.mpr ⟨id, hid, rfl⟩
  exact flatMap_filter_perm _ l hkeys hcov

theorem bucketsDesc_sorted (l : List (List String)) :
    (bucketsDesc l).Pairwise (fun a b => b.length ≤ a.length) := by
  unfold bucketsDesc
  rw [List.pairwise_flatMap]
  constructor
  · intro k hk
    apply List.pairwise_of_forall_mem_list
    intro a ha b hb
    rw [List.mem_filter, decide_eq_true_eq] at ha hb
    omega
  · have hsorted : ((l.map List.length).dedup.mergeSort (fun x y => decide (y ≤ x))).Pairwise
        (fun x y => decide (y ≤ x) = true) :=
      List.sorted_mergeSort (fun a b c hab hbc => by
          simp only [decide_eq_true_eq] at hab hbc ⊢
          omega)
        (fun a b => by
          rcases Nat.le_total b a with h | h
          · simp [h]
          · simp [h])
        ((l.map List.length).dedup)
    apply hsorted.imp_of_mem
    intro k1 k2 hk1 hk2 hle
    intro x hx y hy
    rw [List.mem_filter, decide_eq_true_eq] at hx hy
    simp only [decide_eq_true_eq] at hle
    omega

end BucketLemmas

section RmdirLemmas

/-- The store entries strictly below `p`. -/
def subtreeEntries (st : Store) (p : List String) : List (List String × String) :=
  st.assets.filter (fun e => p.isPrefixOf e.1 && decide (e.1 ≠ p))

theorem recGet_perm (st : Store) (hwf : st.Wf) (p : List String) (hcl : st.Closed p) :
    List.Perm (recGet st p) ((subtreeEntries st p).map (fun e => e.1)) := by
  have hnd1 : (recGet st p).Nodup := recGet_nodup st hwf _ p (le_refl _)
  have hnd2 : ((subtreeEntries st p).map (fun e => e.1)).Nodup :=
    ((List.filter_sublist st.assets).map _).nodup hwf.2
  rw [List.perm_ext_iff_of_nodup hnd1 hnd2]
  intro x
  constructor
  · intro hx
    obtain ⟨t, ht, hpre, hne⟩ :=
      mem_recGet_src st (st.maxLen + 1 - p.length) p x (le_refl _) hx
    refine List.mem_map.mpr ⟨(x, t), List.mem_filter.mpr ⟨ht, ?_⟩, rfl⟩
    rw [Bool.and_eq_true, decide_eq_true_eq]
    exact ⟨List.isPrefixOf_iff_prefix.mpr hpre, hne⟩
  · intro hx
    obtain ⟨e, he, rfl⟩ := List.mem_map.mp hx
    obtain ⟨hmem, hcond⟩ := List.mem_filter.mp he
    rw [Bool.and_eq_true, decide_eq_true_eq] at hcond
    exact mem_recGet_tgt st e.1.length p e.1 e.2 (by omega)
      (closed_chain st p e.1 e.2 hcl hmem (List.isPrefixOf_iff_prefix.mp hcond.1))
      hmem (List.isPrefixOf_iff_prefix.mp hcond.1) hcond.2

/-- Wrapping a well-formed identifier back through the `Asset` constructor
is the identity on the component list. -/
theorem assetOf_posixOf (id : List String) (hid : ∀ c ∈ id, okComp c = true) :
    Asset.of (posixOf id) = ⟨⟨0, id⟩⟩ := by
  unfold Asset.of posixOf
  rw [parse_posix ⟨0, id⟩ ⟨Nat.zero_le 2, hid⟩]
  rfl

theorem is_type_eval (a : Asset) (st : Store) (ty q : String) (raised : Bool)
    (h : st.getAsset a.path.parts = some ty) :
    a.is_type q raised st
      = if ty = q then Res.ok true st
        else if raised then Res.err (.wrongType a.posix q) st else Res.ok false st := by
  unfold Asset.is_type
  simp only [bind_eq, M.bind, Asset.existsM, Asset.typeM, h]
  by_cases hq : ty = q
  · simp [hq, pureM, M.pure]
  · simp only [hq, if_false, ite_false]
    by_cases hr : raised
    · simp [hr, throwM, M.throw]
    · simp [hr, pureM, M.pure]

theorem listCheck_ok (a : Asset) (st : Store)
    (h : a.is_projectB = true ∨ st.getAsset a.path.parts = some "FOLDER") :
    Asset.listCheck a st = Res.ok () st := by
  unfold Asset.listCheck
  by_cases hp : a.is_projectB = true
  · simp [hp, pureM, M.pure]
  · rcases h with h | h
    · exact absurd h hp
    · have := is_type_eval a st "FOLDER" "FOLDER" true h
      simp only [if_pos rfl] at this
      simp [hp, bind_eq, M.bind, this, pureM, M.pure]

theorem iterdir_rec_eval (a : Asset) (st : Store)
    (h : a.is_projectB = true ∨ st.getAsset a.path.parts = some "FOLDER") :
    a.iterdirM true st
      = Res.ok ((recGet st a.path.parts).map (fun id => Asset.of (posixOf id))) st := by
  unfold Asset.iterdirM
  rw [bindM_ok _ _ st st () (listCheck_ok a st h)]
  rfl

theorem iterdir_flat_eval (a : Asset) (st : Store)
    (h : a.is_projectB = true ∨ st.getAsset a.path.parts = some "FOLDER") :
    a.iterdirM false st
      = Res.ok ((st.listAssets a.path.parts).map (fun e => Asset.of (posixOf e.1))) st := by
  unfold Asset.iterdirM
  rw [bindM_ok _ _ st st () (listCheck_ok a st h)]
  rfl

end RmdirLemmas

/-- C1: for a folder asset, `rmdir(recursive=True)` with no explicitly
supplied `dry_run` issues no remote `deleteAsset` call — the returned state,
audit log included, is exactly the input state — and returns the full list
of identifiers that would be deleted: every asset strictly below the folder
plus the folder itself. -/
theorem rmdir_dry_default_spec (st : Store) (a : Asset) (hwf : st.Wf)
    (hfolder : st.getAsset a.path.parts = some "FOLDER")
    (hcl : st.Closed a.path.parts) :
    ∃ out, Asset.rmdirM a true none st = Res.ok out st ∧
      List.Perm out (((subtreeEntries st a.path.parts).map (fun e => posixOf e.1))
        ++ [posixOf a.path.parts]) := by
  have hty := is_type_eval a st "FOLDER" "FOLDER" true hfolder
  rw [if_pos rfl] at hty
  have hiter := iterdir_rec_eval a st (Or.inr hfolder)
  have hmap : ((recGet st a.path.parts).map (fun id => Asset.of (posixOf id))).map
      (fun x => x.path.parts) = recGet st a.path.parts := by
    rw [List.map_map]
    have hpt : ∀ id ∈ recGet st a.path.parts,
        ((fun x : Asset => x.path.parts) ∘ fun id => Asset.of (posixOf id)) id = id := by
      intro id hid
      obtain ⟨t, ht, -, -⟩ := mem_recGet_src st (st.maxLen + 1 - a.path.parts.length) _ id
        (le_refl _) hid
      have hcomp := (hwf.1 (id, t) ht).2
      simp [Function.comp, assetOf_posixOf id hcomp]
    rw [List.map_congr_left hpt]
    simp
  refine ⟨(bucketsDesc (recGet st a.path.parts) ++ [a.path.parts]).map posixOf, ?_, ?_⟩
  · unfold Asset.rmdirM
    simp only [bind_eq, M.bind, hty, hiter, hmap, Option.getD_none, if_true, ite_true,
      pure, M.pure]
  · rw [List.map_append]
    apply List.Perm.append_right
    have h12 := ((bucketsDesc_perm (recGet st a.path.parts)).trans
      (recGet_perm st hwf a.path.parts hcl)).map posixOf
    rw [List.map_map] at h12
    exact h12

/-- Witness for C1 on a concrete two-level folder tree. -/
theorem rmdir_dry_default_witness :
    ∃ out, Asset.rmdirM (Asset.of "projects/x/assets/F") true none
        ⟨[(["projects", "x", "assets", "F"], "FOLDER"),
          (["projects", "x", "assets", "F", "a"], "IMAGE"),
          (["projects", "x", "assets", "F", "b"], "FOLDER"),
          (["projects", "x", "assets", "F", "b", "c"], "IMAGE")], []⟩
      = Res.ok out
        ⟨[(["projects", "x", "assets", "F"], "FOLDER"),
          (["projects", "x", "assets", "F", "a"], "IMAGE"),
          (["projects", "x", "assets", "F", "b"], "FOLDER"),
          (["projects", "x", "assets", "F", "b", "c"], "IMAGE")], []⟩ ∧
      List.Perm out
        (((subtreeEntries
            ⟨[(["projects", "x", "assets", "F"], "FOLDER"),
              (["projects", "x", "assets", "F", "a"], "IMAGE"),
              (["projects", "x", "assets", "F", "b"], "FOLDER"),
              (["projects", "x", "assets", "F", "b", "c"], "IMAGE")], []⟩
            (Asset.of "projects/x/assets/F").path.parts).map (fun e => posixOf e.1))
          ++ [posixOf (Asset.of "projects/x/assets/F").path.parts]) :=
  rmdir_dry_default_spec _ (Asset.of "projects/x/assets/F")
    (by unfold Store.Wf; decide) (by decide) (by unfold Store.Closed; decide)

section DeleteSeqLemmas

/-- If every identifier to delete is present, the identifiers are distinct,
and every child (in the store) of a listed identifier occurs strictly
earlier in the list, then the sequential deletion succeeds and removes
exactly the listed identifiers, logging one `deleteAsset` call each. -/
theorem deleteSeq_spec :
    ∀ (ids : List (List String)) (st : Store),
      ids.Nodup →
      (∀ id ∈ ids, ∃ t, (id, t) ∈ st.assets) →
      (∀ id ∈ ids, ∀ e ∈ st.assets, e.1.length = id.length + 1 → id <+: e.1 →
          ∀ pre suf, ids = pre ++ id :: suf → e.1 ∈ pre) →
      deleteSeq ids st = Res.ok () ⟨st.assets.filter (fun e => decide (e.1 ∉ ids)),
        st.log ++ ids.map RCall.deleteA⟩ := by
  intro ids
  induction ids with
  | nil =>
    intro st _ _ _
    show M.pure () st = _
    unfold M.pure
    have h1 : st.assets.filter (fun e => decide (e.1 ∉ ([] : List (List String))))
        = st.assets := List.filter_eq_self.mpr (fun e _ => by simp)
    rw [h1]
    simp
  | cons id rest ih =>
    intro st hnd hex hbefore
    rw [List.nodup_cons] at hnd
    obtain ⟨t, ht⟩ := hex id (List.mem_cons_self _ _)
    obtain ⟨t0, ht0⟩ := lookupA_isSome (List.mem_map.mpr ⟨(id, t), ht, rfl⟩)
    have hnochild : st.listAssets id = [] := by
      rcases hch : st.listAssets id with _ | ⟨e, rest'⟩
      · rfl
      · have hmem := (mem_listAssets st id e).mp (by rw [hch]; exact List.mem_cons_self _ _)
        have := hbefore id (List.mem_cons_self _ _) e hmem.1 hmem.2.1 hmem.2.2
          [] rest rfl
        simp at this
    have hdel : Store.deleteAssetM id st
        = Res.ok () ⟨st.assets.filter (fun e => !decide (e.1 = id)),
            st.log ++ [RCall.deleteA id]⟩ := by
      unfold Store.deleteAssetM
      rw [ht0, hnochild]
      simp
    have hex' : ∀ id' ∈ rest, ∃ t',
        (id', t') ∈ (st.assets.filter (fun e => !decide (e.1 = id))) := by
      intro id' hid'
      obtain ⟨t', ht'⟩ := hex id' (List.mem_cons_of_mem _ hid')
      refine ⟨t', List.mem_filter.mpr ⟨ht', ?_⟩⟩
      have : id' ≠ id := fun hcon => hnd.1 (hcon ▸ hid')
      simp [this]
    have hbefore' : ∀ id' ∈ rest,
        ∀ e ∈ (st.assets.filter (fun e => !decide (e.1 = id))),
          e.1.length = id'.length + 1 → id' <+: e.1 →
          ∀ pre suf, rest = pre ++ id' :: suf → e.1 ∈ pre := by
      intro id' hid' e he hlen hpre pre suf hdecomp
      obtain ⟨hemem, hene⟩ := List.mem_filter.mp he
      have hene' : e.1 ≠ id := by simpa using hene
      have := hbefore id' (List.mem_cons_of_mem _ hid') e hemem hlen hpre
        (id :: pre) suf (by rw [hdecomp]; rfl)
      rcases List.mem_cons.mp this with h | h
      · exact absurd h hene'
      · exact h
    show (Store.deleteAssetM id >>= fun _ => deleteSeq rest) st = _
    rw [bindM_ok _ _ st _ () hdel]
    rw [ih _ hnd.2 hex' hbefore']
    have hassets : (st.assets.filter (fun e => !decide (e.1 = id))).filter
          (fun e => decide (e.1 ∉ rest))
        = st.assets.filter (fun e => decide (e.1 ∉ id :: rest)) := by
      rw [List.filter_filter]
      apply List.filter_congr
      intro e _
      by_cases h1 : e.1 = id
      · simp [h1]
      · by_cases h2 : e.1 ∈ rest
        · simp [h1, h2]
        · simp [h1, h2]
    rw [hassets]
    simp [List.append_assoc]

end DeleteSeqLemmas

/-- C3: live recursive `rmdir` (`dry_run=False`) deletes the subtree by
strictly decreasing depth buckets with the folder itself last, so every
delete finds an empty folder and succeeds: the final store is the input
store minus every identifier below (or equal to) the folder, one logged
`deleteAsset` per removed identifier, in the emitted order. -/
theorem rmdir_live_spec (st : Store) (a : Asset) (hwf : st.Wf)
    (hfolder : st.getAsset a.path.parts = some "FOLDER")
    (hcl : st.Closed a.path.parts) :
    ∃ ids st', Asset.rmdirM a true (some false) st = Res.ok (ids.map posixOf) st' ∧
      List.Perm ids ((subtreeEntries st a.path.parts).map (fun e => e.1)
        ++ [a.path.parts]) ∧
      ids.Pairwise (fun x y => y.length ≤ x.length) ∧
      ids.getLast? = some a.path.parts ∧
      st'.assets = st.assets.filter (fun e => !(a.path.parts.isPrefixOf e.1)) ∧
      st'.log = st.log ++ ids.map RCall.deleteA := by
  have hty := is_type_eval a st "FOLDER" "FOLDER" true hfolder
  rw [if_pos rfl] at hty
  have hiter := iterdir_rec_eval a st (Or.inr hfolder)
  have hmap : ((recGet st a.path.parts).map (fun id => Asset.of (posixOf id))).map
      (fun x => x.path.parts) = recGet st a.path.parts := by
    rw [List.map_map]
    have hpt : ∀ id ∈ recGet st a.path.parts,
        ((fun x : Asset => x.path.parts) ∘ fun id => Asset.of (posixOf id)) id = id := by
      intro id hid
      obtain ⟨t, ht, -, -⟩ := mem_recGet_src st (st.maxLen + 1 - a.path.parts.length) _ id
        (le_refl _) hid
      have hcomp := (hwf.1 (id, t) ht).2
      simp [Function.comp, assetOf_posixOf id hcomp]
    rw [List.map_congr_left hpt]
    simp
  have hDperm : List.Perm (bucketsDesc (recGet st a.path.parts)) (recGet st a.path.parts) :=
    bucketsDesc_perm _
  have hsubperm := recGet_perm st hwf a.path.parts hcl
  have hDprop : ∀ x ∈ bucketsDesc (recGet st a.path.parts),
      ∃ t, (x, t) ∈ st.assets ∧ a.path.parts <+: x ∧ x ≠ a.path.parts := by
    intro x hx
    exact mem_recGet_src st (st.maxLen + 1 - a.path.parts.length) _ x (le_refl _)
      (hDperm.mem_iff.mp hx)
  have hlenD : ∀ x ∈ bucketsDesc (recGet st a.path.parts),
      a.path.parts.length < x.length := by
    intro x hx
    obtain ⟨t, -, hpre, hne⟩ := hDprop x hx
    rcases Nat.lt_or_ge a.path.parts.length x.length with h | h
    · exact h
    · exact absurd (hpre.eq_of_length_le h).symm hne
  have hnd : (bucketsDesc (recGet st a.path.parts) ++ [a.path.parts]).Nodup := by
    refine List.Nodup.append (hDperm.nodup_iff.mpr (recGet_nodup st hwf _ _ (le_refl _)))
      (List.nodup_singleton _) ?_
    intro x hx hx'
    rw [List.mem_singleton] at hx'
    rw [hx'] at hx
    exact absurd (hlenD _ hx) (lt_irrefl _)
  have hex : ∀ id ∈ bucketsDesc (recGet st a.path.parts) ++ [a.path.parts],
      ∃ t, (id, t) ∈ st.assets := by
    intro id hid
    rcases List.mem_append.mp hid with h | h
    · obtain ⟨t, ht, -, -⟩ := hDprop id h
      exact ⟨t, ht⟩
    · rw [List.mem_singleton] at h
      subst h
      exact ⟨"FOLDER", lookupA_some_mem hfolder⟩
  have hpair : (bucketsDesc (recGet st a.path.parts) ++ [a.path.parts]).Pairwise
      (fun x y => y.length ≤ x.length) := by
    rw [List.pairwise_append]
    refine ⟨bucketsDesc_sorted _, List.pairwise_singleton _ _, ?_⟩
    intro x hx y hy
    rw [List.mem_singleton] at hy
    subst hy
    exact le_of_lt (hlenD x hx)
  have hbefore : ∀ id ∈ bucketsDesc (recGet st a.path.parts) ++ [a.path.parts],
      ∀ e ∈ st.assets, e.1.length = id.length + 1 → id <+: e.1 →
        ∀ pre suf, bucketsDesc (recGet st a.path.parts) ++ [a.path.parts]
          = pre ++ id :: suf → e.1 ∈ pre := by
    intro id hid e he hlen hpre pre suf hdecomp
    have hppre : a.path.parts <+: id := by
      rcases List.mem_append.mp hid with h | h
      · exact (hDprop id h).choose_spec.2.1
      · rw [List.mem_singleton] at h
        subst h
        exact List.prefix_refl _
    have hepre : a.path.parts <+: e.1 := hppre.trans hpre
    have heneq : e.1 ≠ a.path.parts := by
      intro hcon
      have h1 := hppre.length_le
      have := congrArg List.length hcon
      omega
    have heD : e.1 ∈ bucketsDesc (recGet st a.path.parts) := by
      rw [hDperm.mem_iff, hsubperm.mem_iff]
      refine List.mem_map.mpr ⟨e, List.mem_filter.mpr ⟨he, ?_⟩, rfl⟩
      rw [Bool.and_eq_true, decide_eq_true_eq]
      exact ⟨List.isPrefixOf_iff_prefix.mpr hepre, heneq⟩
    have hmemids : e.1 ∈ pre ++ id :: suf := by
      rw [← hdecomp]
      exact List.mem_append.mpr (Or.inl heD)
    rcases List.mem_append.mp hmemids with h | h
    · exact h
    · rcases List.mem_cons.mp h with h | h
      · exact absurd (congrArg List.length h) (by omega)
      · rw [hdecomp] at hpair
        obtain ⟨-, hp2, -⟩ := List.pairwise_append.mp hpair
        have := (List.pairwise_cons.mp hp2).1 e.1 h
        omega
  have hds := deleteSeq_spec (bucketsDesc (recGet st a.path.parts) ++ [a.path.parts]) st
    hnd hex hbefore
  have hfilter : st.assets.filter (fun e =>
        decide (e.1 ∉ bucketsDesc (recGet st a.path.parts) ++ [a.path.parts]))
      = st.assets.filter (fun e => !(a.path.parts.isPrefixOf e.1)) := by
    apply List.filter_congr
    intro e he
    by_cases hp : a.path.parts <+: e.1
    · have hmem : e.1 ∈ bucketsDesc (recGet st a.path.parts) ++ [a.path.parts] := by
        by_cases heq : e.1 = a.path.parts
        · exact List.mem_append.mpr (Or.inr (by rw [List.mem_singleton, heq]))
        · refine List.mem_append.mpr (Or.inl ?_)
          rw [hDperm.mem_iff, hsubperm.mem_iff]
          refine List.mem_map.mpr ⟨e, List.mem_filter.mpr ⟨he, ?_⟩, rfl⟩
          rw [Bool.and_eq_true, decide_eq_true_eq]
          exact ⟨List.isPrefixOf_iff_prefix.mpr hp, heq⟩
      simp [hmem, List.isPrefixOf_iff_prefix.mpr hp]
    · have hnmem : e.1 ∉ bucketsDesc (recGet st a.path.parts) ++ [a.path.parts] := by
        intro hcon
        rcases List.mem_append.mp hcon with h | h
        · exact hp (hDprop e.1 h).choose_spec.2.1
        · rw [List.mem_singleton] at h
          exact hp (h ▸ List.prefix_refl _)
      have hpb : a.path.parts.isPrefixOf e.1 = false := by
        rw [← Bool.not_eq_true]
        intro hcon
        exact hp (List.isPrefixOf_iff_prefix.mp hcon)
      simp [hnmem, hpb]
  refine ⟨bucketsDesc (recGet st a.path.parts) ++ [a.path.parts],
    ⟨st.assets.filter (fun e => !(a.path.parts.isPrefixOf e.1)),
      st.log ++ (bucketsDesc (recGet st a.path.parts) ++ [a.path.parts]).map
        RCall.deleteA⟩, ?_, ?_, hpair, ?_, rfl, rfl⟩
  · unfold Asset.rmdirM
    rw [hfilter] at hds
    simp only [bind_eq, M.bind, hty, hiter, hmap, Option.getD_some, if_true, ite_true,
      Bool.false_eq_true, if_false, ite_false, hds, pure, M.pure]
  · exact (hDperm.trans hsubperm).append_right _
  · rw [List.getLast?_append]
    rfl

/-- Witness for C3 on a concrete two-level folder tree. -/
theorem rmdir_live_witness :
    ∃ ids st',
      Asset.rmdirM (Asset.of "projects/x/assets/F") true (some false)
          ⟨[(["projects", "x", "assets", "F"], "FOLDER"),
            (["projects", "x", "assets", "F", "a"], "IMAGE"),
            (["projects", "x", "assets", "F", "b"], "FOLDER"),
            (["projects", "x", "assets", "F", "b", "c"], "IMAGE")], []⟩
        = Res.ok (ids.map posixOf) st' ∧
      List.Perm ids ((subtreeEntries
          ⟨[(["projects", "x", "assets", "F"], "FOLDER"),
            (["projects", "x", "assets", "F", "a"], "IMAGE"),
            (["projects", "x", "assets", "F", "b"], "FOLDER"),
            (["projects", "x", "assets", "F", "b", "c"], "IMAGE")], []⟩
          (Asset.of "projects/x/assets/F").path.parts).map (fun e => e.1)
        ++ [(Asset.of "projects/x/assets/F").path.parts]) ∧
      ids.Pairwise (fun x y => y.length ≤ x.length) ∧
      ids.getLast? = some (Asset.of "projects/x/assets/F").path.parts ∧
      st'.assets = List.filter
        (fun e => !((Asset.of "projects/x/assets/F").path.parts.isPrefixOf e.1))
        [(["projects", "x", "assets", "F"], "FOLDER"),
          (["projects", "x", "assets", "F", "a"], "IMAGE"),
          (["projects", "x", "assets", "F", "b"], "FOLDER"),
          (["projects", "x", "assets", "F", "b", "c"], "IMAGE")] ∧
      st'.log = [] ++ ids.map RCall.deleteA :=
  rmdir_live_spec _ (Asset.of "projects/x/assets/F")
    (by unfold Store.Wf; decide) (by decide) (by unfold Store.Closed; decide)

section MoveLemmas

/-- Identifiers whose components are all well formed; every store reachable
from such a store by the modelled remote calls keeps this shape. -/
def Store.OkIds (st : Store) : Prop :=
  ∀ e ∈ st.assets, ∀ c ∈ e.1, okComp c = true

theorem lookupA_append_left {l l' : List (List String × String)} {id : List String}
    (h : (lookupA l id).isSome = true) : lookupA (l ++ l') id = lookupA l id := by
  induction l with
  | nil => simp [lookupA] at h
  | cons e rest ih =>
    by_cases he : e.1 = id
    · simp [lookupA, he]
    · simp only [lookupA, if_neg he] at h ⊢
      exact ih h

theorem lookupA_append_right {l l' : List (List String × String)} {id : List String}
    (h : lookupA l id = none) : lookupA (l ++ l') id = lookupA l' id := by
  induction l with
  | nil => simp
  | cons e rest ih =>
    by_cases he : e.1 = id
    · simp [lookupA, he] at h
    · simp only [lookupA, if_neg he] at h ⊢
      exact ih h

theorem isSome_lookupA_append {l l' : List (List String × String)} {id : List String}
    (h : (lookupA l id).isSome = true) : (lookupA (l ++ l') id).isSome = true := by
  rw [lookupA_append_left h]; exact h

theorem lookupA_filter_self (l : List (List String × String)) (id : List String) :
    lookupA (l.filter (fun e => !decide (e.1 = id))) id = none := by
  induction l with
  | nil => rfl
  | cons e rest ih =>
    by_cases he : e.1 = id
    · simpa [List.filter_cons, he] using ih
    · simpa [List.filter_cons, he, lookupA] using ih

theorem lookupA_filter_ne {l : List (List String × String)} {id id' : List String}
    (h : id ≠ id') : lookupA (l.filter (fun e => !decide (e.1 = id'))) id = lookupA l id := by
  induction l with
  | nil => rfl
  | cons e rest ih =>
    rw [List.filter_cons]
    by_cases he : e.1 = id'
    · have hne : e.1 ≠ id := by rw [he]; exact fun hc => h hc.symm
      rw [if_neg (by simp [he])]
      rw [ih]
      simp [lookupA, hne]
    · rw [if_pos (by simp [he])]
      simp only [lookupA]
      by_cases hi : e.1 = id
      · simp [hi]
      · simp only [if_neg hi]
        exact ih

end MoveLemmas

/-- C2 counterexample: moving folder `projects/x/assets/F` (children `a`, `b`)
onto `projects/x/assets/D` with `overwrite=False` in a store already holding
an orphan record at `D/b` fails at the second child with "already exists" —
yet at that moment the first child `F/a` has already been deleted from the
source (its per-child move ends with its own delete), while the source
folder `F` still exists.  The source subtree is thus not deleted "only at
the very end of the top-level call", and a mid-tree failure does not leave
"the entire source present". -/
theorem move_atomicity_cex :
    ∃ st' : Store,
      Asset.moveF 5 (Asset.of "projects/x/assets/F") (Asset.of "projects/x/assets/D") false
          ⟨[(["projects","x","assets"], "FOLDER"),
            (["projects","x","assets","F"], "FOLDER"),
            (["projects","x","assets","F","a"], "IMAGE"),
            (["projects","x","assets","F","b"], "IMAGE"),
            (["projects","x","assets","D","b"], "IMAGE")], []⟩
        = Res.err (Err.alreadyExists "projects/x/assets/D/b") st' ∧
      lookupA st'.assets ["projects","x","assets","F","a"] = none ∧
      lookupA st'.assets ["projects","x","assets","F"] = some "FOLDER" ∧
      (RCall.deleteA ["projects","x","assets","F","a"]) ∈ st'.log :=
  ⟨⟨[(["projects","x","assets"], "FOLDER"),
     (["projects","x","assets","F"], "FOLDER"),
     (["projects","x","assets","F","b"], "IMAGE"),
     (["projects","x","assets","D","b"], "IMAGE"),
     (["projects","x","assets","D"], "FOLDER"),
     (["projects","x","assets","D","a"], "IMAGE")],
    [RCall.createA ["projects","x","assets","D"],
     RCall.copyA ["projects","x","assets","F","a"] ["projects","x","assets","D","a"],
     RCall.deleteA ["projects","x","assets","F","a"]]⟩,
   rfl, rfl, rfl, by simp⟩

section MoveInvLemmas

theorem bind_ok_inv {α β : Type} {x : M α} {f : α → M β} {st st' : Store} {b : β}
    (h : M.bind x f st = Res.ok b st') :
    ∃ a st₁, x st = Res.ok a st₁ ∧ f a st₁ = Res.ok b st' := by
  unfold M.bind at h
  rcases hx : x st with ⟨a, st₁⟩ | ⟨e, st₁⟩
  · rw [hx] at h
    exact ⟨a, st₁, rfl, h⟩
  · rw [hx] at h
    exact Res.noConfusion h

theorem read_ok_inv {α : Type} {f : Store → α} {st st' : Store} {v : α}
    (h : M.read f st = Res.ok v st') : st' = st ∧ v = f st := by
  unfold M.read at h
  cases h
  exact ⟨rfl, rfl⟩

theorem pure_ok_inv {α : Type} {a v : α} {st st' : Store}
    (h : (pure a : M α) st = Res.ok v st') : st' = st ∧ v = a := by
  cases h
  exact ⟨rfl, rfl⟩

theorem existsM_ok_inv {a : Asset} {raised : Bool} {st st' : Store} {v : Bool}
    (h : a.existsM raised st = Res.ok v st') :
    st' = st ∧ v = (lookupA st.assets a.path.parts).isSome := by
  unfold Asset.existsM Store.getAsset at h
  rcases hl : lookupA st.assets a.path.parts with _ | t
  · rw [hl] at h
    cases raised with
    | true => exact Res.noConfusion h
    | false =>
      cases h
      exact ⟨rfl, rfl⟩
  · rw [hl] at h
    cases h
    exact ⟨rfl, rfl⟩

theorem typeM_ok_inv {a : Asset} {st st' : Store} {ty : String}
    (h : a.typeM st = Res.ok ty st') :
    st' = st ∧ lookupA st.assets a.path.parts = some ty := by
  unfold Asset.typeM Store.getAsset at h
  rcases hl : lookupA st.assets a.path.parts with _ | t
  · rw [hl] at h
    exact Res.noConfusion h
  · rw [hl] at h
    cases h
    exact ⟨rfl, rfl⟩

theorem is_type_ok_inv {a : Asset} {t : String} {raised : Bool} {st st' : Store} {v : Bool}
    (h : a.is_type t raised st = Res.ok v st') :
    st' = st ∧ ∃ ty, lookupA st.assets a.path.parts = some ty ∧ v = decide (ty = t) := by
  unfold Asset.is_type at h
  simp only [bind_eq] at h
  obtain ⟨e₁, st₁, h1, hr1⟩ := bind_ok_inv h
  obtain ⟨rfl, -⟩ := existsM_ok_inv h1
  obtain ⟨ty, st₂, h2, hr2⟩ := bind_ok_inv hr1
  obtain ⟨rfl, hty⟩ := typeM_ok_inv h2
  refine ⟨?_, ty, hty, ?_⟩ <;>
    · by_cases hq : ty = t
      · rw [if_pos hq] at hr2
        obtain ⟨rfl, rfl⟩ := pure_ok_inv hr2
        simp [hq]
      · rw [if_neg hq] at hr2
        cases raised with
        | true => exact Res.noConfusion hr2
        | false =>
          obtain ⟨rfl, rfl⟩ := pure_ok_inv hr2
          simp [hq]

theorem is_absolute_raised_ok_inv {a : Asset} {st st' : Store} {x : Unit}
    (h : a.is_absolute_raised st = Res.ok x st') : st' = st := by
  unfold Asset.is_absolute_raised at h
  by_cases hb : a.is_absoluteB
  · rw [if_pos hb] at h
    cases h
    rfl
  · rw [if_neg hb] at h
    exact Res.noConfusion h

theorem listCheck_ok_inv {a : Asset} {st st' : Store} {x : Unit}
    (h : a.listCheck st = Res.ok x st') : st' = st := by
  unfold Asset.listCheck at h
  by_cases hp : a.is_projectB = true
  · rw [if_pos hp] at h
    exact (pure_ok_inv h).1
  · rw [if_neg hp] at h
    simp only [bind_eq] at h
    obtain ⟨v, st₁, h1, hr1⟩ := bind_ok_inv h
    obtain ⟨rfl, -⟩ := is_type_ok_inv h1
    exact (pure_ok_inv hr1).1

theorem iterdir_flat_ok_inv {a : Asset} {st st' : Store} {cs : List Asset}
    (h : a.iterdirM false st = Res.ok cs st') :
    st' = st ∧ cs = (st.listAssets a.path.parts).map (fun e => Asset.of (posixOf e.1)) := by
  unfold Asset.iterdirM at h
  simp only [bind_eq] at h
  obtain ⟨u, st₁, h1, hr1⟩ := bind_ok_inv h
  obtain rfl := listCheck_ok_inv h1
  simp only [Bool.false_eq_true, if_false] at hr1
  obtain ⟨rfl, hv⟩ := read_ok_inv hr1
  exact ⟨rfl, hv⟩

theorem createAssetM_ok_inv {id : List String} {st st' : Store} {x : Unit}
    (h : Store.createAssetM id st = Res.ok x st') :
    lookupA st.assets id = none ∧
      st' = ⟨st.assets ++ [(id, "FOLDER")], st.log ++ [.createA id]⟩ := by
  unfold Store.createAssetM at h
  rcases hl : lookupA st.assets id with _ | t
  · rw [hl] at h
    cases h
    exact ⟨rfl, rfl⟩
  · rw [hl] at h
    exact Res.noConfusion h

theorem copyAssetM_ok_inv {src dst : List String} {st st' : Store} {x : Unit}
    (h : Store.copyAssetM src dst st = Res.ok x st') :
    ∃ t, lookupA st.assets src = some t ∧
      st' = ⟨st.assets.filter (fun e => !decide (e.1 = dst)) ++ [(dst, t)],
        st.log ++ [.copyA src dst]⟩ := by
  unfold Store.copyAssetM at h
  rcases hl : lookupA st.assets src with _ | t
  · rw [hl] at h
    exact Res.noConfusion h
  · rw [hl] at h
    cases h
    exact ⟨t, rfl, rfl⟩

theorem deleteAssetM_ok_inv {id : List String} {st st' : Store} {x : Unit}
    (h : Store.deleteAssetM id st = Res.ok x st') :
    st'.assets = st.assets.filter (fun e => !decide (e.1 = id)) := by
  unfold Store.deleteAssetM at h
  split at h
  · exact Res.noConfusion h
  · split at h
    · exact Res.noConfusion h
    · cases h
      rfl

theorem unlinkM_ok_inv {a : Asset} {st st' : Store} {x : Unit}
    (h : a.unlinkM st = Res.ok x st') :
    st'.assets = st.assets.filter (fun e => !decide (e.1 = a.path.parts)) := by
  unfold Asset.unlinkM at h
  simp only [bind_eq] at h
  obtain ⟨v, st₁, h1, hr1⟩ := bind_ok_inv h
  obtain ⟨rfl, -⟩ := existsM_ok_inv h1
  exact deleteAssetM_ok_inv hr1

end MoveInvLemmas

section MkdirLemmas

theorem createSeq_ext :
    ∀ (l : List Asset) (st st' : Store), createSeq l st = Res.ok () st' →
      ∃ ext, st'.assets = st.assets ++ ext ∧
        (∀ e ∈ ext, ∃ p, p ∈ l ∧ e = (p.path.parts, "FOLDER")) ∧
        (∀ p ∈ l, (lookupA st'.assets p.path.parts).isSome = true) := by
  intro l
  induction l with
  | nil =>
    intro st st' h
    obtain ⟨rfl, -⟩ := pure_ok_inv h
    exact ⟨[], by simp, by simp, by simp⟩
  | cons p rest ih =>
    intro st st' h
    unfold createSeq at h
    simp only [bind_eq] at h
    obtain ⟨u, st₁, h1, hr1⟩ := bind_ok_inv h
    obtain ⟨hnone, rfl⟩ := createAssetM_ok_inv h1
    obtain ⟨ext', he', hm', hl'⟩ := ih _ st' hr1
    refine ⟨(p.path.parts, "FOLDER") :: ext', ?_, ?_, ?_⟩
    · rw [he']
      simp
    · intro e he
      rcases List.mem_cons.mp he with rfl | he
      · exact ⟨p, List.mem_cons_self _ _, rfl⟩
      · obtain ⟨q, hq, rfl⟩ := hm' e he
        exact ⟨q, List.mem_cons_of_mem _ hq, rfl⟩
    · intro q hq
      rcases List.mem_cons.mp hq with rfl | hq
      · rw [he']
        apply isSome_lookupA_append
        rw [lookupA_append_right hnone]
        simp [lookupA]
      · exact hl' q hq

/-- The asset constructor is the identity on a relative path. -/
theorem ofP_rel (p : PurePosixPath) (hp : p.root = 0) : Asset.ofP p = ⟨p⟩ := by
  unfold Asset.ofP
  rw [if_neg]
  simp [hp]

theorem parents_parts {a : Asset} (ha0 : a.path.root = 0) {p : Asset}
    (hp : p ∈ Asset.parents a) :
    p.path.root = 0 ∧ ∃ k, p.path.parts = a.path.parts.take k := by
  unfold Asset.parents at hp
  rw [List.mem_map] at hp
  obtain ⟨q, hq, rfl⟩ := hp
  have hq' := (List.mem_filter.mp hq).1
  unfold PurePosixPath.parentsP at hq'
  rw [List.mem_map] at hq'
  obtain ⟨i, -, rfl⟩ := hq'
  rw [ofP_rel ⟨a.path.root, a.path.parts.take (a.path.parts.length - 1 - i)⟩ ha0]
  exact ⟨ha0, _, rfl⟩

/-- `Asset.parent` of a relative-rooted asset: drop the last component (or
the asset itself when there is none). -/
theorem parent_parts {a : Asset} (ha0 : a.path.root = 0) :
    (Asset.parent a).path.root = 0 ∧
      ((Asset.parent a).path.parts = a.path.parts ∨
        (Asset.parent a).path.parts = a.path.parts.dropLast) := by
  unfold Asset.parent PurePosixPath.parent
  by_cases hnil : a.path.parts = []
  · rw [if_pos hnil, ofP_rel a.path ha0]
    exact ⟨ha0, Or.inl rfl⟩
  · rw [if_neg hnil, ofP_rel ⟨a.path.root, a.path.parts.dropLast⟩ ha0]
    exact ⟨ha0, Or.inr rfl⟩

theorem mkdirM_good {s : Asset} {st st' : Store} {r : Asset}
    (h0 : s.path.root = 0) (hok : ∀ q ∈ s.path.parts, okComp q = true)
    (hst : Store.OkIds st) (h : s.mkdirM true true st = Res.ok r st') :
    Store.OkIds st' ∧ (lookupA st'.assets s.path.parts).isSome = true ∧
      (∀ id, (lookupA st.assets id).isSome = true →
        (lookupA st'.assets id).isSome = true) := by
  unfold Asset.mkdirM at h
  simp only [bind_eq] at h
  obtain ⟨u₀, st₀, h1, hr1⟩ := bind_ok_inv h
  rw [is_absolute_raised_ok_inv h1] at hr1
  obtain ⟨toBe0, st₁, h2, hr2⟩ := bind_ok_inv hr1
  obtain ⟨heq2, htoBe0⟩ := read_ok_inv h2
  rw [heq2] at hr2
  obtain ⟨selfE, st₂, h3, hr3⟩ := bind_ok_inv hr2
  obtain ⟨heq3, hselfE⟩ := read_ok_inv h3
  rw [heq3] at hr3
  simp only [Bool.not_true, Bool.and_false, Bool.false_eq_true, if_false] at hr3
  obtain ⟨u₁, st₃, h4, hr4⟩ := bind_ok_inv hr3
  obtain ⟨heq4, -⟩ := pure_ok_inv hr4
  rw [← heq4] at h4
  obtain ⟨ext, hext, hmem, hlook⟩ := createSeq_ext _ _ _ h4
  have hselfE' : selfE = (lookupA st.assets s.path.parts).isSome := hselfE
  have hsub : ∀ p, (p = s ∨ p ∈ Asset.parents s) →
      (∀ q ∈ p.path.parts, okComp q = true) := by
    rintro p (rfl | hp)
    · exact hok
    · obtain ⟨-, k, hk⟩ := parents_parts h0 hp
      intro q hq
      rw [hk] at hq
      exact hok q (List.mem_of_mem_take hq)
  have htb : ∀ p ∈ (if selfE = true then toBe0 else s :: toBe0),
      p = s ∨ p ∈ Asset.parents s := by
    intro p hp
    by_cases hse : selfE = true
    · rw [if_pos hse] at hp
      rw [htoBe0] at hp
      exact Or.inr (List.mem_of_mem_filter hp)
    · rw [if_neg hse] at hp
      rcases List.mem_cons.mp hp with rfl | hp
      · exact Or.inl rfl
      · rw [htoBe0] at hp
        exact Or.inr (List.mem_of_mem_filter hp)
  refine ⟨?_, ?_, ?_⟩
  · intro e he
    rw [hext] at he
    rcases List.mem_append.mp he with he | he
    · exact hst e he
    · obtain ⟨p, hp, rfl⟩ := hmem e he
      exact hsub p (htb p (List.mem_reverse.mp hp))
  · by_cases hse : selfE = true
    · rw [hext]
      apply isSome_lookupA_append
      rw [← hselfE']
      exact hse
    · apply hlook
      rw [List.mem_reverse, if_neg hse]
      exact List.mem_cons_self _ _
  · intro id hid
    rw [hext]
    exact isSome_lookupA_append hid

end MkdirLemmas

/-- C2 (amended): `move` recurses per child and each recursive call deletes
its own source right after its own copy (not only at the very end of the
top-level call); what survives is the success half of the claim: whenever a
`move` call returns successfully (destination not inside the source), the
returned asset is the destination, the source identifier no longer exists,
the destination identifier exists, and every identifier outside the source
subtree that existed before still exists (copying may duplicate, deletions
stay inside the source subtree). -/
theorem move_success_spec :
    ∀ (fuel : Nat) (a b : Asset) (ow : Bool) (st st' : Store) (r : Asset),
      Store.OkIds st → a.path.root = 0 → b.path.root = 0 →
      (∀ c ∈ a.path.parts, okComp c = true) → (∀ c ∈ b.path.parts, okComp c = true) →
      ¬ a.path.parts <+: b.path.parts →
      Asset.moveF fuel a b ow st = Res.ok r st' →
      r = b ∧ lookupA st'.assets a.path.parts = none ∧
        (lookupA st'.assets b.path.parts).isSome = true ∧ Store.OkIds st' ∧
        (∀ id, ¬ a.path.parts <+: id → (lookupA st.assets id).isSome = true →
          (lookupA st'.assets id).isSome = true) := by
  intro fuel
  induction fuel with
  | zero =>
    intro a b ow st st' r _ _ _ _ _ _ h
    exact Res.noConfusion h
  | succ fuel ih =>
    intro a b ow st st' r hok ha0 hb0 haok hbok hab h
    have hba : b.path.parts ≠ a.path.parts := by
      intro hE
      apply hab
      rw [hE]
    simp only [Asset.moveF, bind_eq] at h
    obtain ⟨dstE, st₁, h1, hr1⟩ := bind_ok_inv h
    obtain ⟨heq1, -⟩ := existsM_ok_inv h1
    rw [heq1] at hr1
    by_cases hcond : (dstE && !ow) = true
    · rw [if_pos hcond] at hr1
      exact Res.noConfusion hr1
    · rw [if_neg hcond] at hr1
      obtain ⟨r₂, st₂, h2, hr2⟩ := bind_ok_inv hr1
      obtain ⟨hp0, hpparts⟩ := parent_parts hb0
      have hpok : ∀ q ∈ (Asset.parent b).path.parts, okComp q = true := by
        rcases hpparts with hE | hE <;> rw [hE] <;> intro q hq
        · exact hbok q hq
        · exact hbok q (List.mem_of_mem_dropLast hq)
      obtain ⟨hok₂, hself₂, hmono₂⟩ := mkdirM_good hp0 hpok hok h2
      obtain ⟨isF, st₃, h3, hr3⟩ := bind_ok_inv hr2
      unfold Asset.is_folder at h3
      obtain ⟨heq3, -⟩ := is_type_ok_inv h3
      rw [heq3] at hr3
      obtain ⟨u₄, st₄, h4, hr4⟩ := bind_ok_inv hr3
      obtain ⟨u₅, st₅, h5, hr5⟩ := bind_ok_inv hr4
      obtain ⟨heq5, hr⟩ := pure_ok_inv hr5
      have hfil := unlinkM_ok_inv h5
      have hmain : Store.OkIds st₄ ∧ (lookupA st₄.assets b.path.parts).isSome = true ∧
          (∀ id, ¬ a.path.parts <+: id → (lookupA st₂.assets id).isSome = true →
            (lookupA st₄.assets id).isSome = true) := by
        by_cases hisF : isF = true
        · rw [if_pos hisF] at h4
          obtain ⟨rb, stA, hA, hAr⟩ := bind_ok_inv h4
          obtain ⟨hokA, hselfA, hmonoA⟩ := mkdirM_good hb0 hbok hok₂ hA
          obtain ⟨children, stB, hB, hBr⟩ := bind_ok_inv hAr
          obtain ⟨heqB, hch⟩ := iterdir_flat_ok_inv hB
          rw [heqB] at hBr
          have hcprops : ∀ c ∈ children, c.path.root = 0 ∧
              (∀ q ∈ c.path.parts, okComp q = true) ∧
              a.path.parts <+: c.path.parts ∧
              c.path.parts.length = a.path.parts.length + 1 := by
            intro c hc
            rw [hch, List.mem_map] at hc
            obtain ⟨e, he, rfl⟩ := hc
            obtain ⟨hmem, hlen, hpre⟩ := (mem_listAssets stA a.path.parts e).mp he
            have hokc := hokA e hmem
            rw [assetOf_posixOf e.1 hokc]
            exact ⟨rfl, hokc, hpre, hlen⟩
          have hloop : ∀ (l : List Asset) (s0 s1 : Store) (u : Unit),
              Store.OkIds s0 →
              (∀ c ∈ l, c.path.root = 0 ∧ (∀ q ∈ c.path.parts, okComp q = true) ∧
                a.path.parts <+: c.path.parts ∧
                c.path.parts.length = a.path.parts.length + 1) →
              moveLoop (fun c loc => Asset.moveF fuel c loc ow) a b l s0 = Res.ok u s1 →
              Store.OkIds s1 ∧
                (∀ id, ¬ a.path.parts <+: id → (lookupA s0.assets id).isSome = true →
                  (lookupA s1.assets id).isSome = true) := by
            intro l
            induction l with
            | nil =>
              intro s0 s1 u hok0 hcs hl
              obtain ⟨heq, -⟩ := pure_ok_inv hl
              subst heq
              exact ⟨hok0, fun id _ hs => hs⟩
            | cons c rest ihl =>
              intro s0 s1 u hok0 hcs hl
              unfold moveLoop at hl
              simp only [bind_eq] at hl
              obtain ⟨rc, sm, hc1, hc2⟩ := bind_ok_inv hl
              obtain ⟨hc0, hcok, hcpre, hclen⟩ := hcs c (List.mem_cons_self _ _)
              have hloc0 : (b.div (c.path.parts.drop a.path.parts.length)).path.root = 0 :=
                hb0
              have hlocok : ∀ q ∈ (b.div (c.path.parts.drop a.path.parts.length)).path.parts,
                  okComp q = true := by
                intro q hq
                rcases List.mem_append.mp hq with hq | hq
                · exact hbok q hq
                · exact hcok q (List.mem_of_mem_drop hq)
              have hnploc : ¬ c.path.parts <+:
                  (b.div (c.path.parts.drop a.path.parts.length)).path.parts := by
                intro hcl
                have h1' : a.path.parts <+:
                    (b.path.parts ++ c.path.parts.drop a.path.parts.length) :=
                  hcpre.trans hcl
                have hdlen : (c.path.parts.drop a.path.parts.length).length = 1 := by
                  rw [List.length_drop, hclen]
                  omega
                have hle : a.path.parts.length ≤ b.path.parts.length := by
                  have h2' : c.path.parts.length ≤
                      (b.path.parts ++ c.path.parts.drop a.path.parts.length).length :=
                    hcl.length_le
                  rw [List.length_append, hdlen, hclen] at h2'
                  omega
                apply hab
                have hta := List.prefix_iff_eq_take.mp h1'
                rw [List.take_append_of_le_length hle] at hta
                rw [hta]
                exact List.take_prefix _ _
              have hmv := ih c (b.div (c.path.parts.drop a.path.parts.length)) ow s0 sm rc
                hok0 hc0 hloc0 hcok hlocok hnploc hc1
              obtain ⟨-, -, -, hokm, hkeepm⟩ := hmv
              obtain ⟨hok1, hkeep1⟩ :=
                ihl sm s1 u hokm (fun c' hc' => hcs c' (List.mem_cons_of_mem _ hc')) hc2
              refine ⟨hok1, fun id hid hs => ?_⟩
              apply hkeep1 id hid
              apply hkeepm id ?_ hs
              intro hcid
              exact hid (hcpre.trans hcid)
          obtain ⟨hokB, hkeepB⟩ := hloop children stA st₄ u₄ hokA hcprops hBr
          refine ⟨hokB, hkeepB _ hab hselfA, ?_⟩
          intro id hid hs
          exact hkeepB id hid (hmonoA id hs)
        · rw [if_neg hisF] at h4
          obtain ⟨uc, stC, hC, hCr⟩ := bind_ok_inv h4
          obtain ⟨t, hsrc, hstC⟩ := copyAssetM_ok_inv hC
          obtain ⟨heqC, -⟩ := pure_ok_inv hCr
          rw [heqC, hstC]
          have hassets : (⟨st₂.assets.filter (fun e => !decide (e.1 = b.path.parts))
                ++ [(b.path.parts, t)],
              st₂.log ++ [.copyA a.path.parts b.path.parts]⟩ : Store).assets
              = st₂.assets.filter (fun e => !decide (e.1 = b.path.parts))
                ++ [(b.path.parts, t)] := rfl
          refine ⟨?_, ?_, ?_⟩
          · intro e he
            rw [hassets] at he
            rcases List.mem_append.mp he with he | he
            · exact hok₂ e (List.mem_of_mem_filter he)
            · rcases List.mem_singleton.mp he with rfl
              exact hbok
          · rw [hassets, lookupA_append_right (lookupA_filter_self _ _)]
            simp [lookupA]
          · intro id hid hs
            rw [hassets]
            by_cases hidb : id = b.path.parts
            · rw [hidb, lookupA_append_right (lookupA_filter_self _ _)]
              simp [lookupA]
            · apply isSome_lookupA_append
              rw [lookupA_filter_ne hidb]
              exact hs
      obtain ⟨hok₄, hbp₄, hkeep₄⟩ := hmain
      refine ⟨hr, ?_, ?_, ?_, ?_⟩
      · rw [heq5, hfil]
        exact lookupA_filter_self _ _
      · rw [heq5, hfil, lookupA_filter_ne hba]
        exact hbp₄
      · intro e he
        rw [heq5] at he
        rw [hfil] at he
        exact hok₄ e (List.mem_of_mem_filter he)
      · intro id hid hs
        have hidA : id ≠ a.path.parts := by
          intro hE
          apply hid
          rw [hE]
        rw [heq5, hfil, lookupA_filter_ne hidA]
        exact hkeep₄ id hid (hmono₂ id hs)

/-- Witness: a concrete successful `move` of folder `projects/x/assets/F`
(one child image) onto `projects/x/assets/G`, checked against the amended
specification. -/
theorem move_success_witness :
    Asset.of "projects/x/assets/G" = Asset.of "projects/x/assets/G" ∧
      lookupA [(["projects","x","assets"], "FOLDER"),
          (["projects","x","assets","G"], "FOLDER"),
          (["projects","x","assets","G","a"], "IMAGE")]
        (Asset.of "projects/x/assets/F").path.parts = none ∧
      (lookupA [(["projects","x","assets"], "FOLDER"),
          (["projects","x","assets","G"], "FOLDER"),
          (["projects","x","assets","G","a"], "IMAGE")]
        (Asset.of "projects/x/assets/G").path.parts).isSome = true ∧
      Store.OkIds ⟨[(["projects","x","assets"], "FOLDER"),
          (["projects","x","assets","G"], "FOLDER"),
          (["projects","x","assets","G","a"], "IMAGE")],
        [RCall.createA ["projects","x","assets","G"],
         RCall.copyA ["projects","x","assets","F","a"] ["projects","x","assets","G","a"],
         RCall.deleteA ["projects","x","assets","F","a"],
         RCall.deleteA ["projects","x","assets","F"]]⟩ ∧
      (∀ id, ¬ (Asset.of "projects/x/assets/F").path.parts <+: id →
        (lookupA [(["projects","x","assets"], "FOLDER"),
            (["projects","x","assets","F"], "FOLDER"),
            (["projects","x","assets","F","a"], "IMAGE")] id).isSome = true →
        (lookupA [(["projects","x","assets"], "FOLDER"),
            (["projects","x","assets","G"], "FOLDER"),
            (["projects","x","assets","G","a"], "IMAGE")] id).isSome = true) :=
  move_success_spec 3 (Asset.of "projects/x/assets/F") (Asset.of "projects/x/assets/G") false
    ⟨[(["projects","x","assets"], "FOLDER"),
      (["projects","x","assets","F"], "FOLDER"),
      (["projects","x","assets","F","a"], "IMAGE")], []⟩
    ⟨[(["projects","x","assets"], "FOLDER"),
      (["projects","x","assets","G"], "FOLDER"),
      (["projects","x","assets","G","a"], "IMAGE")],
     [RCall.createA ["projects","x","assets","G"],
      RCall.copyA ["projects","x","assets","F","a"] ["projects","x","assets","G","a"],
      RCall.deleteA ["projects","x","assets","F","a"],
      RCall.deleteA ["projects","x","assets","F"]]⟩
    (Asset.of "projects/x/assets/G")
    (by unfold Store.OkIds; decide) rfl rfl (by decide) (by decide) (by decide) rfl

section IterdirLemmas

theorem flatMap_split {α β : Type} (f : α → List β) :
    ∀ (l : List α) (pre suf : List β) (x : β), l.flatMap f = pre ++ x :: suf →
      ∃ l1 e l2 fe1 fe2, l = l1 ++ e :: l2 ∧ f e = fe1 ++ x :: fe2 ∧
        suf = fe2 ++ l2.flatMap f := by
  intro l
  induction l with
  | nil =>
    intro pre suf x h
    rw [List.flatMap_nil] at h
    exact absurd h.symm (List.append_ne_nil_of_right_ne_nil _ (by simp))
  | cons a l ihl =>
    intro pre suf x h
    rw [List.flatMap_cons] at h
    rcases List.append_eq_append_iff.mp h with ⟨a', ha1, ha2⟩ | ⟨c', hc1, hc2⟩
    · obtain ⟨l1, e, l2, fe1, fe2, hl, hfe, hsuf⟩ := ihl a' suf x ha2
      refine ⟨a :: l1, e, l2, fe1, fe2, ?_, hfe, hsuf⟩
      rw [hl]
      rfl
    · cases c' with
      | nil =>
        rw [List.nil_append] at hc2
        obtain ⟨l1, e, l2, fe1, fe2, hl, hfe, hsuf⟩ := ihl [] suf x (by rw [hc2]; rfl)
        refine ⟨a :: l1, e, l2, fe1, fe2, ?_, hfe, hsuf⟩
        rw [hl]
        rfl
      | cons y t =>
        rw [List.cons_append] at hc2
        obtain ⟨rfl, hsuf⟩ := List.cons.inj hc2
        exact ⟨[], a, l, pre, t, rfl, hc1, hsuf⟩

/-- Every member of the recursive listing reaches its position through FOLDER
records only: the listing descends only into children whose reported type is
FOLDER. -/
theorem mem_recGet_chain (st : Store) (hwf : st.Wf) :
    ∀ (n : Nat) (p x : List String), st.maxLen + 1 - p.length ≤ n →
      x ∈ recGet st p → ChainFolders st p x := by
  intro n
  induction n with
  | zero =>
    intro p x hn hx
    rw [recGet_eq, List.mem_flatMap] at hx
    obtain ⟨e, he, -⟩ := hx
    have h1 := (mem_listAssets st p e).mp he
    have h2 := length_le_maxLen st e h1.1
    omega
  | succ n ihn =>
    intro p x hn hx
    rw [recGet_eq, List.mem_flatMap] at hx
    obtain ⟨e, he, hx⟩ := hx
    obtain ⟨hmem, hlen, hpre⟩ := (mem_listAssets st p e).mp he
    rcases List.mem_cons.mp hx with rfl | hx
    · intro k hk1 hk2
      rw [hlen] at hk2
      exact absurd hk2 (by omega)
    · split at hx
      case isFalse => simp at hx
      case isTrue hF =>
        intro k hk1 hk2
        obtain ⟨t, hxmem, hxpre, hxne⟩ :=
          mem_recGet_src st (st.maxLen + 1 - e.1.length) e.1 x (le_refl _) hx
        by_cases hke : k = e.1.length
        · have htk : x.take k = e.1 := by
            rw [hke]
            exact (List.prefix_iff_eq_take.mp hxpre).symm
          rw [htk]
          unfold Store.getAsset
          have hepair : (e.1, "FOLDER") ∈ st.assets := by
            rw [← hF, Prod.mk.eta]
            exact hmem
          exact mem_lookupA hwf.2 hepair
        · have hk' : e.1.length < k := by omega
          exact ihn e.1 x (by have := length_le_maxLen st e hmem; omega) hx k hk' hk2

/-- Pre-order shape, part 1: in the recursive listing no identifier is
followed by one of its own (weak) ancestors — every listed asset appears
before all of its listed descendants. -/
theorem recGet_anc (st : Store) (hwf : st.Wf) :
    ∀ (n : Nat) (p : List String), st.maxLen + 1 - p.length ≤ n →
      (recGet st p).Pairwise (fun x y => ¬ y <+: x) := by
  intro n
  induction n with
  | zero =>
    intro p hn
    rw [recGet_eq]
    have hempty : st.listAssets p = [] := by
      rcases he : st.listAssets p with _ | ⟨e, rest⟩
      · rfl
      · have hmem := (mem_listAssets st p e).mp (by rw [he]; exact List.mem_cons_self _ _)
        have := length_le_maxLen st e hmem.1
        omega
    rw [hempty]
    exact List.Pairwise.nil
  | succ n ihn =>
    intro p hn
    rw [recGet_eq, List.pairwise_flatMap]
    constructor
    · intro e he
      obtain ⟨hmem, hlen, hpre⟩ := (mem_listAssets st p e).mp he
      rw [List.pairwise_cons]
      constructor
      · intro y hy hcon
        split at hy
        · obtain ⟨t, hymem, hypre, hyne⟩ :=
            mem_recGet_src st (st.maxLen + 1 - e.1.length) e.1 y (le_refl _) hy
          have h1 := hypre.length_le
          have h2 := hcon.length_le
          have : e.1 = y := hypre.eq_of_length_le (by omega)
          exact hyne this.symm
        · simp at hy
      · split
        · have := length_le_maxLen st e hmem
          exact ihn e.1 (by omega)
        · exact List.Pairwise.nil
    · have hnd := listAssets_fst_nodup st hwf p
      have hW : (st.listAssets p).Pairwise (fun e1 e2 => e1.1 ≠ e2.1) :=
        List.pairwise_map.mp hnd
      refine hW.imp_of_mem ?_
      intro e1 e2 he1 he2 hne x hx y hy hcon
      have h1 := recGet_block_take st p e1 he1 x hx
      have h2 := recGet_block_take st p e2 he2 y hy
      have hylen : p.length + 1 ≤ y.length := by
        obtain ⟨hmem2, hlen2, hpre2⟩ := (mem_listAssets st p e2).mp he2
        rcases List.mem_cons.mp hy with rfl | hy
        · omega
        · split at hy
          · obtain ⟨t, hymem, hypre, hyne⟩ :=
              mem_recGet_src st (st.maxLen + 1 - e2.1.length) e2.1 y (le_refl _) hy
            have h3 := hypre.length_le
            have h4 : y.length ≠ e2.1.length := by
              intro hE
              exact hyne (hypre.eq_of_length_le (by omega)).symm
            omega
          · simp at hy
      obtain ⟨s, rfl⟩ := hcon
      rw [List.take_append_of_le_length hylen] at h1
      exact hne (h1 ▸ h2 ▸ rfl)

/-- Pre-order shape, part 2: in the recursive listing every FOLDER entry is
immediately followed by exactly its own recursive listing — a child's whole
subtree comes before the next sibling's block. -/
theorem recGet_contig (st : Store) (hwf : st.Wf) :
    ∀ (n : Nat) (p : List String), st.maxLen + 1 - p.length ≤ n →
      ∀ pre x suf, recGet st p = pre ++ x :: suf →
        st.getAsset x = some "FOLDER" → ∃ rest, suf = recGet st x ++ rest := by
  intro n
  induction n with
  | zero =>
    intro p hn pre x suf hdec hx
    rw [recGet_eq] at hdec
    have hempty : st.listAssets p = [] := by
      rcases he : st.listAssets p with _ | ⟨e, rest⟩
      · rfl
      · have hmem := (mem_listAssets st p e).mp (by rw [he]; exact List.mem_cons_self _ _)
        have := length_le_maxLen st e hmem.1
        omega
    rw [hempty] at hdec
    exact absurd hdec.symm (List.append_ne_nil_of_right_ne_nil _ (by simp))
  | succ n ihn =>
    intro p hn pre x suf hdec hx
    rw [recGet_eq] at hdec
    obtain ⟨l1, e, l2, fe1, fe2, hl, hfe, hsuf⟩ := flatMap_split _ _ pre suf x hdec
    have he : e ∈ st.listAssets p := by
      rw [hl]
      exact List.mem_append_right _ (List.mem_cons_self _ _)
    obtain ⟨hmem, hlen, hpre⟩ := (mem_listAssets st p e).mp he
    cases fe1 with
    | nil =>
      rw [List.nil_append] at hfe
      obtain ⟨rfl, hfe2⟩ := List.cons.inj hfe
      have hF : e.2 = "FOLDER" := by
        have hl2 : lookupA st.assets e.1 = some e.2 :=
          mem_lookupA hwf.2 (Prod.mk.eta ▸ hmem)
        have := hx
        unfold Store.getAsset at this
        rw [hl2] at this
        exact (Option.some.inj this)
      rw [if_pos hF] at hfe2
      refine ⟨l2.flatMap (fun e => e.1 :: (if e.2 = "FOLDER" then recGet st e.1 else [])),
        ?_⟩
      rw [hsuf, hfe2]
    | cons z t =>
      rw [List.cons_append] at hfe
      obtain ⟨rfl, hfe2⟩ := List.cons.inj hfe
      have hblock : x ∈ recGet st e.1 := by
        by_cases hF : e.2 = "FOLDER"
        · rw [if_pos hF] at hfe2
          rw [hfe2]
          exact List.mem_append_right _ (List.mem_cons_self _ _)
        · rw [if_neg hF] at hfe2
          exact absurd hfe2.symm (List.append_ne_nil_of_right_ne_nil _ (by simp))
      have hF : e.2 = "FOLDER" := by
        by_cases hF : e.2 = "FOLDER"
        · exact hF
        · rw [if_neg hF] at hfe2
          exact absurd hfe2.symm (List.append_ne_nil_of_right_ne_nil _ (by simp))
      rw [if_pos hF] at hfe2
      obtain ⟨rest', hrest'⟩ := ihn e.1
        (by have := length_le_maxLen st e hmem; omega) t x fe2 hfe2 hx
      refine ⟨rest' ++ l2.flatMap (fun e => e.1 :: (if e.2 = "FOLDER" then recGet st e.1
        else [])), ?_⟩
      rw [hsuf, hrest', List.append_assoc]

/-- Sibling order: restricting the recursive listing to one level below any
parent identifier recovers exactly that parent's one-level listing, in the
remote listing's native order. -/
theorem recGet_level (st : Store) (q : List String) :
    (recGet st q).filter (fun x => decide (x.length = q.length + 1))
      = (st.listAssets q).map (fun e => e.1) := by
  rw [recGet_eq, List.filter_flatMap]
  have hcong : ∀ e ∈ st.listAssets q,
      (e.1 :: (if e.2 = "FOLDER" then recGet st e.1 else [])).filter
          (fun x => decide (x.length = q.length + 1))
        = [e.1] := by
    intro e he
    obtain ⟨hmem, hlen, hpre⟩ := (mem_listAssets st q e).mp he
    rw [List.filter_cons]
    rw [if_pos (by simp [hlen])]
    have hrest : (if e.2 = "FOLDER" then recGet st e.1 else []).filter
        (fun x => decide (x.length = q.length + 1)) = [] := by
      rw [List.filter_eq_nil_iff]
      intro y hy
      split at hy
      · obtain ⟨t, hymem, hypre, hyne⟩ :=
          mem_recGet_src st (st.maxLen + 1 - e.1.length) e.1 y (le_refl _) hy
        have h3 := hypre.length_le
        have h4 : y.length ≠ e.1.length := by
          intro hE
          exact hyne (hypre.eq_of_length_le (by omega)).symm
        simp only [decide_eq_true_eq]
        omega
      · simp at hy
    rw [hrest]
  rw [flatMap_congr_mem _ _ _ hcong]
  induction st.listAssets q with
  | nil => rfl
  | cons e rest ih =>
    rw [List.flatMap_cons, List.map_cons, ih]
    rfl

/-- C9: for a project or folder asset, `iterdir(recursive=True)` succeeds
without touching the store and returns, wrapped as assets, exactly the
identifiers strictly below it that are reachable through FOLDER records
(descent happens only into children whose reported type is FOLDER), in
pre-order: no duplicates, every listed asset before its own listed
descendants, every listed FOLDER immediately followed by its whole recursive
listing (so a child's subtree precedes the next sibling's block), and each
level kept in the remote listing's native order. -/
theorem iterdir_recursive_spec (st : Store) (a : Asset) (hwf : st.Wf)
    (hroot : a.is_projectB = true ∨ st.getAsset a.path.parts = some "FOLDER") :
    a.iterdirM true st
        = Res.ok ((recGet st a.path.parts).map (fun id => Asset.of (posixOf id))) st ∧
      (∀ x, x ∈ recGet st a.path.parts ↔
        (∃ t, (x, t) ∈ st.assets) ∧ a.path.parts <+: x ∧ x ≠ a.path.parts ∧
          ChainFolders st a.path.parts x) ∧
      (recGet st a.path.parts).Nodup ∧
      (recGet st a.path.parts).Pairwise (fun x y => ¬ y <+: x) ∧
      (∀ pre x suf, recGet st a.path.parts = pre ++ x :: suf →
        st.getAsset x = some "FOLDER" → ∃ rest, suf = recGet st x ++ rest) ∧
      (∀ q, (recGet st q).filter (fun x => decide (x.length = q.length + 1))
        = (st.listAssets q).map (fun e => e.1)) := by
  refine ⟨iterdir_rec_eval a st hroot, ?_,
    recGet_nodup st hwf _ a.path.parts (le_refl _),
    recGet_anc st hwf _ a.path.parts (le_refl _),
    recGet_contig st hwf _ a.path.parts (le_refl _), recGet_level st⟩
  intro x
  constructor
  · intro hx
    obtain ⟨t, hmem, hpre, hne⟩ := mem_recGet_src st _ a.path.parts x (le_refl _) hx
    exact ⟨⟨t, hmem⟩, hpre, hne, mem_recGet_chain st hwf _ a.path.parts x (le_refl _) hx⟩
  · rintro ⟨⟨t, hmem⟩, hpre, hne, hch⟩
    exact mem_recGet_tgt st x.length a.path.parts x t (by omega) hch hmem hpre hne

/-- Witness: the recursive listing of a concrete three-asset folder. -/
theorem iterdir_recursive_witness :
    (Asset.of "projects/x/assets/F").iterdirM true
        ⟨[(["projects","x","assets","F"], "FOLDER"),
          (["projects","x","assets","F","a"], "IMAGE"),
          (["projects","x","assets","F","b"], "FOLDER"),
          (["projects","x","assets","F","b","c"], "IMAGE")], []⟩
      = Res.ok ((recGet ⟨[(["projects","x","assets","F"], "FOLDER"),
            (["projects","x","assets","F","a"], "IMAGE"),
            (["projects","x","assets","F","b"], "FOLDER"),
            (["projects","x","assets","F","b","c"], "IMAGE")], []⟩
            (Asset.of "projects/x/assets/F").path.parts).map
          (fun id => Asset.of (posixOf id)))
        ⟨[(["projects","x","assets","F"], "FOLDER"),
          (["projects","x","assets","F","a"], "IMAGE"),
          (["projects","x","assets","F","b"], "FOLDER"),
          (["projects","x","assets","F","b","c"], "IMAGE")], []⟩ :=
  (iterdir_recursive_spec
    ⟨[(["projects","x","assets","F"], "FOLDER"),
      (["projects","x","assets","F","a"], "IMAGE"),
      (["projects","x","assets","F","b"], "FOLDER"),
      (["projects","x","assets","F","b","c"], "IMAGE")], []⟩
    (Asset.of "projects/x/assets/F")
    (by unfold Store.Wf; decide) (Or.inr (by decide))).1
